import Mathlib

/-!
Verification of the binrs binary serialization codec.

This file shallowly embeds the codec core of the repository:
`src/endian.rs` (byte-order conversion), `src/context.rs` (codec context),
`src/encoder.rs` (the `Encoder`/`Encode` traits, the buffer-backed sink and
the built-in `Encode` implementations) and `src/decoder.rs` (the
`Decoder`/`Decode` traits, the buffer-backed cursor source and the built-in
`Decode` implementations).

Machine integers are represented as `Nat`/`Int` with explicit reductions
modulo `2^w`; byte buffers are `List Nat` whose entries denote bytes.
Floats are represented by their IEEE-754 bit patterns (a `Nat` of the
appropriate width): the codec only ever transports a float's bit pattern
through `to_le_bytes`/`from_le_bytes`, never its arithmetic value.
Rust `String` values are represented by their UTF-8 byte contents.
-/

set_option maxHeartbeats 1000000

namespace Binrs

/-- `Endianness` from `src/endian.rs`: the two supported byte orders. -/
inductive Endianness where
  | little
  | big
deriving DecidableEq

/-- `Context` from `src/context.rs`: holds the byte order of one operation. -/
structure Context where
  endian : Endianness
deriving DecidableEq

/-- `Context::new`. -/
def Context.new (e : Endianness) : Context := ⟨e⟩

/-- Little-endian byte decomposition of a natural number into `w` bytes.
This is the meaning of Rust's `to_le_bytes` on a `w`-byte integer whose
unsigned bit pattern is `v` (higher bits beyond `8*w` cannot occur for a
genuine `w`-byte machine integer; the `% 256` steps make the function total). -/
def natLeBytes : Nat → Nat → List Nat
  | 0, _ => []
  | w + 1, v => (v % 256) :: natLeBytes w (v / 256)

/-- Little-endian recomposition of a byte list, the meaning of Rust's
`from_le_bytes` on the unsigned bit-pattern level. -/
def natFromLeBytes : List Nat → Nat
  | [] => 0
  | b :: bs => b + 256 * natFromLeBytes bs

/-- `Endianness::to_bytes` from `src/endian.rs`, on bit patterns: dispatch to
the little-endian or big-endian byte serialization of a `w`-byte value
(`to_be_bytes` produces the reverse of `to_le_bytes`). -/
def Endianness.toBytes (e : Endianness) (w v : Nat) : List Nat :=
  match e with
  | .little => natLeBytes w v
  | .big => (natLeBytes w v).reverse

/-- `Endianness::from_bytes` from `src/endian.rs`, on bit patterns. -/
def Endianness.fromBytes (e : Endianness) (bs : List Nat) : Nat :=
  match e with
  | .little => natFromLeBytes bs
  | .big => natFromLeBytes bs.reverse

/-- Modelled from the spec: the repository's `error.rs` is referenced by
`src/encoder.rs` and `src/decoder.rs` (`crate::error::Error`) but is not
among the source files; only the message strings passed to `.into()` appear
in the sources. Spec §7 fixes the error kinds: `TruncatedInput` (the decoder's
"Not enough bytes to decode"), `InvalidDiscriminant` (the decoder's
"Invalid Option Tag" / "Invalid Result Tag"), `InvalidUtf8` (a string payload
rejected by `String::from_utf8`), and `SinkFailure` (a failing sink write). -/
inductive Error where
  | truncatedInput
  | invalidDiscriminant
  | invalidUtf8
  | sinkFailure
deriving DecidableEq

/-- The universe of wire values handled by the built-in `Encode`/`Decode`
implementations.  Fixed-width unsigned integers carry their width in bytes
and their value; signed integers carry their width and their mathematical
value (`Int`); floats carry their width and IEEE bit pattern; strings carry
their UTF-8 bytes.  Hash/btree maps store their entries as `Val.pair key
value` in iteration order. -/
inductive Val where
  | uint (w : Nat) (n : Nat)
  | int (w : Nat) (v : Int)
  | float (w : Nat) (bits : Nat)
  | bool (b : Bool)
  | str (bytes : List Nat)
  | pair (a b : Val)
  | triple (a b c : Val)
  | none
  | some (v : Val)
  | ok (v : Val)
  | err (v : Val)
  | vec (xs : List Val)
  | hashSet (xs : List Val)
  | btreeSet (xs : List Val)
  | hashMap (entries : List Val)
  | btreeMap (entries : List Val)

/-- The supported built-in types: every type with both an `Encode` and a
`Decode` implementation in the sources (tuples in the sources are 2- and
3-tuples over a single element type). -/
inductive Ty where
  | u8
  | i8
  | u16
  | i16
  | u32
  | i32
  | u64
  | i64
  | u128
  | i128
  | f32
  | f64
  | bool
  | string
  | pair (t : Ty)
  | triple (t : Ty)
  | opt (t : Ty)
  | result (t e : Ty)
  | vec (t : Ty)
  | hashSet (t : Ty)
  | btreeSet (t : Ty)
  | hashMap (k v : Ty)
  | btreeMap (k v : Ty)

mutual
/-- Structural equality test on `Val`, the meaning of Rust's derived `Eq`
on the supported types (used by `HashSet::insert` / `HashMap::insert`). -/
def Val.beq : Val → Val → Bool
  | .uint w n, .uint w' n' => w == w' && n == n'
  | .int w v, .int w' v' => w == w' && v == v'
  | .float w b, .float w' b' => w == w' && b == b'
  | .bool a, .bool b => a == b
  | .str bs, .str bs' => bs == bs'
  | .pair a b, .pair a' b' => Val.beq a a' && Val.beq b b'
  | .triple a b c, .triple a' b' c' => Val.beq a a' && Val.beq b b' && Val.beq c c'
  | .none, .none => true
  | .some a, .some b => Val.beq a b
  | .ok a, .ok b => Val.beq a b
  | .err a, .err b => Val.beq a b
  | .vec xs, .vec ys => Val.beqList xs ys
  | .hashSet xs, .hashSet ys => Val.beqList xs ys
  | .btreeSet xs, .btreeSet ys => Val.beqList xs ys
  | .hashMap xs, .hashMap ys => Val.beqList xs ys
  | .btreeMap xs, .btreeMap ys => Val.beqList xs ys
  | _, _ => false
def Val.beqList : List Val → List Val → Bool
  | [], [] => true
  | x :: xs, y :: ys => Val.beq x y && Val.beqList xs ys
  | _, _ => false
end

/-- Membership test via `Val.beq`, the meaning of `HashSet::contains`. -/
def memBeq (x : Val) : List Val → Bool
  | [] => false
  | y :: ys => Val.beq x y || memBeq x ys

/-- Three-way comparison on `Nat` (Rust's `Ord` on unsigned integers). -/
def natCmp (a b : Nat) : Ordering :=
  if a < b then .lt else if b < a then .gt else .eq

/-- Three-way comparison on `Int` (Rust's `Ord` on signed integers). -/
def intCmp (a b : Int) : Ordering :=
  if a < b then .lt else if b < a then .gt else .eq

/-- Three-way comparison on `Bool` (Rust's `Ord` on `bool`: false < true). -/
def boolCmp (a b : Bool) : Ordering :=
  natCmp (if a then 1 else 0) (if b then 1 else 0)

/-- Lexicographic comparison of byte lists (Rust's `Ord` on `String`,
which compares UTF-8 bytes lexicographically). -/
def natLexCmp : List Nat → List Nat → Ordering
  | [], [] => .eq
  | [], _ :: _ => .lt
  | _ :: _, [] => .gt
  | a :: as_, b :: bs_ =>
    match natCmp a b with
    | .eq => natLexCmp as_ bs_
    | o => o

/-- Constructor index, used to make `Val.cmp` total across constructors
(well-typed comparisons never reach the cross-constructor case). -/
def Val.ctorIdx : Val → Nat
  | .uint _ _ => 0
  | .int _ _ => 1
  | .float _ _ => 2
  | .bool _ => 3
  | .str _ => 4
  | .pair _ _ => 5
  | .triple _ _ _ => 6
  | .none => 7
  | .some _ => 8
  | .ok _ => 9
  | .err _ => 10
  | .vec _ => 11
  | .hashSet _ => 12
  | .btreeSet _ => 13
  | .hashMap _ => 14
  | .btreeMap _ => 15

mutual
/-- Three-way comparison on `Val`, the meaning of Rust's `Ord` on the
supported element types (numeric order on integers, `false < true`,
lexicographic on strings, tuples, `Vec` and the ordered containers,
`None < Some`, `Ok < Err`).  It is made total over the untyped universe by
comparing constructor indices across different constructors. -/
def Val.cmp : Val → Val → Ordering
  | .uint w n, .uint w' n' => (natCmp w w').then (natCmp n n')
  | .int w v, .int w' v' => (natCmp w w').then (intCmp v v')
  | .float w b, .float w' b' => (natCmp w w').then (natCmp b b')
  | .bool a, .bool b => boolCmp a b
  | .str bs, .str bs' => natLexCmp bs bs'
  | .pair a b, .pair a' b' => (Val.cmp a a').then (Val.cmp b b')
  | .triple a b c, .triple a' b' c' =>
    ((Val.cmp a a').then (Val.cmp b b')).then (Val.cmp c c')
  | .none, .none => .eq
  | .none, .some _ => .lt
  | .some _, .none => .gt
  | .some a, .some b => Val.cmp a b
  | .ok a, .ok b => Val.cmp a b
  | .ok _, .err _ => .lt
  | .err _, .ok _ => .gt
  | .err a, .err b => Val.cmp a b
  | .vec xs, .vec ys => Val.cmpList xs ys
  | .hashSet xs, .hashSet ys => Val.cmpList xs ys
  | .btreeSet xs, .btreeSet ys => Val.cmpList xs ys
  | .hashMap xs, .hashMap ys => Val.cmpList xs ys
  | .btreeMap xs, .btreeMap ys => Val.cmpList xs ys
  | a, b => natCmp a.ctorIdx b.ctorIdx
def Val.cmpList : List Val → List Val → Ordering
  | [], [] => .eq
  | [], _ :: _ => .lt
  | _ :: _, [] => .gt
  | x :: xs, y :: ys =>
    match Val.cmp x y with
    | .eq => Val.cmpList xs ys
    | o => o
end

/-- First component of a map entry (`Val.pair key value`). -/
def Val.keyOf : Val → Val
  | .pair k _ => k
  | v => v

/-- Second component of a map entry (`Val.pair key value`). -/
def Val.valOf : Val → Val
  | .pair _ v => v
  | v => v

/-- Whether a value is a `pair` (map entries always are). -/
def Val.isPair : Val → Bool
  | .pair _ _ => true
  | _ => false

/-- `HashSet::insert` on the iteration-order model of a hash set: a present
element (w.r.t. `Eq`) leaves the set unchanged, a new element is added. -/
def hashInsert (s : List Val) (x : Val) : List Val :=
  if memBeq x s then s else s ++ [x]

/-- `BTreeSet::insert` on the sorted-list model of a btree set: insert `x`
at its ordered position; an `Ord`-equal element already present is kept. -/
def btreeInsert (s : List Val) (x : Val) : List Val :=
  match s with
  | [] => [x]
  | y :: ys =>
    match Val.cmp x y with
    | .lt => x :: y :: ys
    | .eq => y :: ys
    | .gt => y :: btreeInsert ys x

/-- `HashMap::insert` on the iteration-order model of a hash map: an entry
whose key is already present replaces that entry, otherwise it is added. -/
def hashMapInsert (m : List Val) (e : Val) : List Val :=
  match m with
  | [] => [e]
  | e' :: rest =>
    if Val.beq e.keyOf e'.keyOf then e :: rest else e' :: hashMapInsert rest e

/-- `BTreeMap::insert` on the key-sorted-list model of a btree map: place
the entry at its key-ordered position, replacing an entry with an
`Ord`-equal key. -/
def btreeMapInsert (m : List Val) (e : Val) : List Val :=
  match m with
  | [] => [e]
  | e' :: rest =>
    match Val.cmp e.keyOf e'.keyOf with
    | .lt => e :: e' :: rest
    | .eq => e :: rest
    | .gt => e' :: btreeMapInsert rest e

/-- A UTF-8 continuation byte (`0x80..=0xBF`). -/
def utf8Cont (c : Nat) : Bool := decide (0x80 ≤ c) && decide (c < 0xC0)

/-- Allowed range of the first continuation byte after leading byte `b`
(shortest-form encodings only, surrogates excluded, max `U+10FFFF`). -/
def utf8Cont1 (b c1 : Nat) : Bool :=
  if b = 0xE0 then decide (0xA0 ≤ c1) && decide (c1 < 0xC0)
  else if b = 0xED then decide (0x80 ≤ c1) && decide (c1 < 0xA0)
  else if b = 0xF0 then decide (0x90 ≤ c1) && decide (c1 < 0xC0)
  else if b = 0xF4 then decide (0x80 ≤ c1) && decide (c1 < 0x90)
  else utf8Cont c1

/-- UTF-8 validity of a byte list: the check performed by
`String::from_utf8` when `decode_string` rebuilds a `String`.
Leading bytes `0x00..=0x7F` stand alone; `0xC2..=0xDF` take one
continuation byte; `0xE0..=0xEF` two; `0xF0..=0xF4` three; everything else
(`0x80..=0xC1`, `0xF5..`) is invalid in leading position. -/
def utf8Valid : List Nat → Bool
  | [] => true
  | b :: rest =>
    if b < 0x80 then utf8Valid rest
    else if b < 0xC2 then false
    else
      match rest with
      | [] => false
      | c1 :: r1 =>
        if b < 0xE0 then utf8Cont1 b c1 && utf8Valid r1
        else
          match r1 with
          | [] => false
          | c2 :: r2 =>
            if b < 0xF0 then utf8Cont1 b c1 && utf8Cont c2 && utf8Valid r2
            else
              match r2 with
              | [] => false
              | c3 :: r3 =>
                if b < 0xF5 then
                  utf8Cont1 b c1 && utf8Cont c2 && utf8Cont c3 && utf8Valid r3
                else false

/-- Two's-complement bit pattern of a signed `w`-byte integer
(Rust's `as uN` cast / the pattern serialized by `to_le_bytes` on `iN`). -/
def i2n (w : Nat) (v : Int) : Nat := (v % ((2 : Int) ^ (8 * w))).toNat

/-- Signed reading of a `w`-byte unsigned bit pattern
(the value produced by Rust's `iN::from_le_bytes`). -/
def n2i (w : Nat) (n : Nat) : Int :=
  if n < 2 ^ (8 * w - 1) then (n : Int) else (n : Int) - 2 ^ (8 * w)

mutual
/-- Whether every length/count prefix inside a value fits in the unsigned
32-bit prefix the wire format uses (`encode_string` and the container
`Encode` implementations write `len() as u32`). -/
def smallLens : Val → Bool
  | .uint _ _ => true
  | .int _ _ => true
  | .float _ _ => true
  | .bool _ => true
  | .str bs => decide (bs.length < 2 ^ 32)
  | .pair a b => smallLens a && smallLens b
  | .triple a b c => smallLens a && smallLens b && smallLens c
  | .none => true
  | .some v => smallLens v
  | .ok v => smallLens v
  | .err v => smallLens v
  | .vec xs => decide (xs.length < 2 ^ 32) && smallLensList xs
  | .hashSet xs => decide (xs.length < 2 ^ 32) && smallLensList xs
  | .btreeSet xs => decide (xs.length < 2 ^ 32) && smallLensList xs
  | .hashMap ps => decide (ps.length < 2 ^ 32) && smallLensList ps
  | .btreeMap ps => decide (ps.length < 2 ^ 32) && smallLensList ps
def smallLensList : List Val → Bool
  | [] => true
  | x :: xs => smallLens x && smallLensList xs
end

mutual
/-- The byte stream produced by the built-in `Encode` implementations of
`src/encoder.rs` under byte order `e`.  The buffer-backed sink
(`BufferEncoder`) is an infallible append-only accumulator, so an encoding
is modelled directly as the list of bytes it appends:
integers/floats go through `Encoder::encode` (context-driven `to_bytes`),
`bool` writes one byte `0`/`1`, strings write `len() as u32` then the raw
UTF-8 bytes, `Option` writes tag `0`/`1` (1 = present) then the payload,
`Result` writes tag `1` for `Ok` and `0` for `Err` then the payload,
and the containers write `len() as u32` then their elements (map entries:
key then value) in iteration order. -/
def encodeVal (e : Endianness) : Val → List Nat
  | .uint w n => e.toBytes w n
  | .int w v => e.toBytes w (i2n w v)
  | .float w bits => e.toBytes w bits
  | .bool b => [if b then 1 else 0]
  | .str bs => e.toBytes 4 (bs.length % 2 ^ 32) ++ bs
  | .pair a b => encodeVal e a ++ encodeVal e b
  | .triple a b c => encodeVal e a ++ encodeVal e b ++ encodeVal e c
  | .none => [0]
  | .some v => 1 :: encodeVal e v
  | .ok v => 1 :: encodeVal e v
  | .err v => 0 :: encodeVal e v
  | .vec xs => e.toBytes 4 (xs.length % 2 ^ 32) ++ encodeValList e xs
  | .hashSet xs => e.toBytes 4 (xs.length % 2 ^ 32) ++ encodeValList e xs
  | .btreeSet xs => e.toBytes 4 (xs.length % 2 ^ 32) ++ encodeValList e xs
  | .hashMap ps => e.toBytes 4 (ps.length % 2 ^ 32) ++ encodeValList e ps
  | .btreeMap ps => e.toBytes 4 (ps.length % 2 ^ 32) ++ encodeValList e ps
def encodeValList (e : Endianness) : List Val → List Nat
  | [] => []
  | x :: xs => encodeVal e x ++ encodeValList e xs
end

/-- `Encode::encode_with_ctx`: run the encoding with a fresh
`BufferEncoder::with_ctx` sink and return its bytes (the in-memory sink
never fails). -/
def encodeWithCtx (v : Val) (ctx : Context) : Except Error (List Nat) :=
  .ok (encodeVal ctx.endian v)

/-- `Encode::encode_to_bytes`: encode with the default little-endian
context. -/
def encodeToBytes (v : Val) : Except Error (List Nat) :=
  encodeWithCtx v (Context.new .little)

/-- `BufferDecoder` from `src/decoder.rs`: a byte slice, a cursor, and the
context. -/
structure BufferDecoder where
  buffer : List Nat
  position : Nat
  context : Context

/-- `BufferDecoder::new`: cursor 0, default little-endian context. -/
def BufferDecoder.new (buffer : List Nat) : BufferDecoder :=
  ⟨buffer, 0, Context.new .little⟩

/-- `BufferDecoder::with_ctx`. -/
def BufferDecoder.withCtx (buffer : List Nat) (ctx : Context) : BufferDecoder :=
  ⟨buffer, 0, ctx⟩

/-- `BufferDecoder::remaining`. -/
def BufferDecoder.remaining (d : BufferDecoder) : Nat :=
  d.buffer.length - d.position

/-- `BufferDecoder::set_position`: relocation clamped to the buffer length. -/
def BufferDecoder.setPosition (d : BufferDecoder) (pos : Nat) : BufferDecoder :=
  { d with position := min pos d.buffer.length }

/-- `BufferDecoder::decode_bytes` (the `Decoder` impl): if fewer than `len`
bytes remain, fail with `TruncatedInput` leaving the state untouched;
otherwise return the slice `buffer[position .. position+len]` and advance
the cursor by `len`.  The mutable receiver is modelled by returning the
decoder state alongside the result. -/
def BufferDecoder.decodeBytes (d : BufferDecoder) (len : Nat) :
    Except Error (List Nat) × BufferDecoder :=
  if d.position + len > d.buffer.length then (.error .truncatedInput, d)
  else (.ok ((d.buffer.drop d.position).take len),
    { d with position := d.position + len })

/-- `decode_bytes` packaged for `?`-style chaining: on error the decoder
state is dropped, as a Rust caller propagating `Err` never touches the
decoder again. -/
def BufferDecoder.readBytes (d : BufferDecoder) (len : Nat) :
    Except Error (List Nat × BufferDecoder) :=
  match d.decodeBytes len with
  | (.ok bs, d1) => .ok (bs, d1)
  | (.error er, _) => .error er

/-- The `for _ in 0..len` loops of the container `Decode` implementations:
run the element decoder `len` times, collecting results in order. -/
def decodeLoop (f : BufferDecoder → Except Error (Val × BufferDecoder)) :
    Nat → BufferDecoder → Except Error (List Val × BufferDecoder)
  | 0, d => .ok ([], d)
  | n + 1, d => do
    let (x, d1) ← f d
    let (xs, d2) ← decodeLoop f n d1
    .ok (x :: xs, d2)

/-- The built-in `Decode` implementations of `src/decoder.rs`, driven by the
type being decoded.  Fixed-width integers and floats read their width in
bytes and convert through the context's byte order (`Decoder::decode`);
`u8`/`i8` read a single raw byte; `bool` reads one byte and treats any
nonzero value as `true`; `String` reads a `u32` length, that many bytes, and
validates UTF-8; `Option`/`Result` read a tag byte (`Option`: 0 = `None`,
1 = `Some`; `Result`: 1 = `Ok`, 0 = `Err`; anything else is an invalid
discriminant); the containers read a `u32` count and that many elements
(maps: key then value per entry), inserting them into the container. -/
def decodeVal : Ty → BufferDecoder → Except Error (Val × BufferDecoder)
  | .u8, d => do
    let (bs, d1) ← d.readBytes 1
    .ok (.uint 1 (bs.headD 0), d1)
  | .i8, d => do
    let (bs, d1) ← d.readBytes 1
    .ok (.int 1 (n2i 1 (bs.headD 0)), d1)
  | .u16, d => do
    let (bs, d1) ← d.readBytes 2
    .ok (.uint 2 (d.context.endian.fromBytes bs), d1)
  | .i16, d => do
    let (bs, d1) ← d.readBytes 2
    .ok (.int 2 (n2i 2 (d.context.endian.fromBytes bs)), d1)
  | .u32, d => do
    let (bs, d1) ← d.readBytes 4
    .ok (.uint 4 (d.context.endian.fromBytes bs), d1)
  | .i32, d => do
    let (bs, d1) ← d.readBytes 4
    .ok (.int 4 (n2i 4 (d.context.endian.fromBytes bs)), d1)
  | .u64, d => do
    let (bs, d1) ← d.readBytes 8
    .ok (.uint 8 (d.context.endian.fromBytes bs), d1)
  | .i64, d => do
    let (bs, d1) ← d.readBytes 8
    .ok (.int 8 (n2i 8 (d.context.endian.fromBytes bs)), d1)
  | .u128, d => do
    let (bs, d1) ← d.readBytes 16
    .ok (.uint 16 (d.context.endian.fromBytes bs), d1)
  | .i128, d => do
    let (bs, d1) ← d.readBytes 16
    .ok (.int 16 (n2i 16 (d.context.endian.fromBytes bs)), d1)
  | .f32, d => do
    let (bs, d1) ← d.readBytes 4
    .ok (.float 4 (d.context.endian.fromBytes bs), d1)
  | .f64, d => do
    let (bs, d1) ← d.readBytes 8
    .ok (.float 8 (d.context.endian.fromBytes bs), d1)
  | .bool, d => do
    let (bs, d1) ← d.readBytes 1
    .ok (.bool (bs.headD 0 != 0), d1)
  | .string, d => do
    let (lb, d1) ← d.readBytes 4
    let (bs, d2) ← d1.readBytes (d.context.endian.fromBytes lb)
    if utf8Valid bs then .ok (.str bs, d2) else .error .invalidUtf8
  | .pair t, d => do
    let (a, d1) ← decodeVal t d
    let (b, d2) ← decodeVal t d1
    .ok (.pair a b, d2)
  | .triple t, d => do
    let (a, d1) ← decodeVal t d
    let (b, d2) ← decodeVal t d1
    let (c, d3) ← decodeVal t d2
    .ok (.triple a b c, d3)
  | .opt t, d => do
    let (bs, d1) ← d.readBytes 1
    match bs.headD 0 with
    | 0 => .ok (.none, d1)
    | 1 => do
      let (v, d2) ← decodeVal t d1
      .ok (.some v, d2)
    | _ => .error .invalidDiscriminant
  | .result t te, d => do
    let (bs, d1) ← d.readBytes 1
    match bs.headD 0 with
    | 1 => do
      let (v, d2) ← decodeVal t d1
      .ok (.ok v, d2)
    | 0 => do
      let (v, d2) ← decodeVal te d1
      .ok (.err v, d2)
    | _ => .error .invalidDiscriminant
  | .vec t, d => do
    let (lb, d1) ← d.readBytes 4
    let (xs, d2) ← decodeLoop (fun d0 => decodeVal t d0)
      (d.context.endian.fromBytes lb) d1
    .ok (.vec xs, d2)
  | .hashSet t, d => do
    let (lb, d1) ← d.readBytes 4
    let (xs, d2) ← decodeLoop (fun d0 => decodeVal t d0)
      (d.context.endian.fromBytes lb) d1
    .ok (.hashSet (xs.foldl hashInsert []), d2)
  | .btreeSet t, d => do
    let (lb, d1) ← d.readBytes 4
    let (xs, d2) ← decodeLoop (fun d0 => decodeVal t d0)
      (d.context.endian.fromBytes lb) d1
    .ok (.btreeSet (xs.foldl btreeInsert []), d2)
  | .hashMap tk tv, d => do
    let (lb, d1) ← d.readBytes 4
    let (ps, d2) ← decodeLoop (fun d0 => do
        let (k, dk) ← decodeVal tk d0
        let (v, dv) ← decodeVal tv dk
        .ok (Val.pair k v, dv))
      (d.context.endian.fromBytes lb) d1
    .ok (.hashMap (ps.foldl hashMapInsert []), d2)
  | .btreeMap tk tv, d => do
    let (lb, d1) ← d.readBytes 4
    let (ps, d2) ← decodeLoop (fun d0 => do
        let (k, dk) ← decodeVal tk d0
        let (v, dv) ← decodeVal tv dk
        .ok (Val.pair k v, dv))
      (d.context.endian.fromBytes lb) d1
    .ok (.btreeMap (ps.foldl btreeMapInsert []), d2)

/-- `Decode::decode_with_ctx`: decode from a fresh `BufferDecoder::with_ctx`
over the bytes, returning the value (trailing bytes are ignored). -/
def decodeWithCtx (t : Ty) (bytes : List Nat) (ctx : Context) :
    Except Error Val :=
  (decodeVal t (BufferDecoder.withCtx bytes ctx)).map (fun p => p.1)

/-- `Decode::decode_from_bytes`: decode with the default little-endian
context. -/
def decodeFromBytes (t : Ty) (bytes : List Nat) : Except Error Val :=
  decodeWithCtx t bytes (Context.new .little)

/-- `Encode for usize`: the encoder writes the value cast to `u64`
(8 bytes).  A `usize` value is a `Nat` below `2^64`. -/
def encodeUsize (e : Endianness) (v : Nat) : List Nat :=
  e.toBytes 8 (v % 2 ^ 64)

/-- `Decoder::decode_usize` from `src/decoder.rs`: declared to return the
16-byte `u128` type, so `Decoder::decode` reads `size_of::<u128>() = 16`
bytes and converts them through the context's byte order. -/
def decodeUsize (d : BufferDecoder) : Except Error (Nat × BufferDecoder) := do
  let (bs, d1) ← d.readBytes 16
  .ok (d.context.endian.fromBytes bs, d1)

/-- Typing judgment: `HasTy v t` says the model value `v` is a genuine
inhabitant of supported type `t` — numeric values are in range for their
width, strings are valid UTF-8, tuple/option/result/container components
are recursively well-typed, hash containers have `Eq`-distinct
elements/keys, and sorted containers are in strictly ascending `Ord` order
(a `BTreeSet`/`BTreeMap` iterates in ascending key order). -/
inductive HasTy : Val → Ty → Prop where
  | u8 {n} : n < 2 ^ 8 → HasTy (.uint 1 n) .u8
  | u16 {n} : n < 2 ^ 16 → HasTy (.uint 2 n) .u16
  | u32 {n} : n < 2 ^ 32 → HasTy (.uint 4 n) .u32
  | u64 {n} : n < 2 ^ 64 → HasTy (.uint 8 n) .u64
  | u128 {n} : n < 2 ^ 128 → HasTy (.uint 16 n) .u128
  | i8 {v} : -(2 ^ 7) ≤ v → v < 2 ^ 7 → HasTy (.int 1 v) .i8
  | i16 {v} : -(2 ^ 15) ≤ v → v < 2 ^ 15 → HasTy (.int 2 v) .i16
  | i32 {v} : -(2 ^ 31) ≤ v → v < 2 ^ 31 → HasTy (.int 4 v) .i32
  | i64 {v} : -(2 ^ 63) ≤ v → v < 2 ^ 63 → HasTy (.int 8 v) .i64
  | i128 {v} : -(2 ^ 127) ≤ v → v < 2 ^ 127 → HasTy (.int 16 v) .i128
  | f32 {bits} : bits < 2 ^ 32 → HasTy (.float 4 bits) .f32
  | f64 {bits} : bits < 2 ^ 64 → HasTy (.float 8 bits) .f64
  | bool {b} : HasTy (.bool b) .bool
  | str {bs} : utf8Valid bs = true → HasTy (.str bs) .string
  | pair {a b t} : HasTy a t → HasTy b t → HasTy (.pair a b) (.pair t)
  | triple {a b c t} : HasTy a t → HasTy b t → HasTy c t →
      HasTy (.triple a b c) (.triple t)
  | none {t} : HasTy .none (.opt t)
  | some {v t} : HasTy v t → HasTy (.some v) (.opt t)
  | ok {v t te} : HasTy v t → HasTy (.ok v) (.result t te)
  | err {v t te} : HasTy v te → HasTy (.err v) (.result t te)
  | vec {xs t} : (∀ x ∈ xs, HasTy x t) → HasTy (.vec xs) (.vec t)
  | hashSet {xs t} : (∀ x ∈ xs, HasTy x t) →
      xs.Pairwise (fun a b => Val.beq a b = false ∧ Val.beq b a = false) →
      HasTy (.hashSet xs) (.hashSet t)
  | btreeSet {xs t} : (∀ x ∈ xs, HasTy x t) →
      xs.Pairwise (fun a b => Val.cmp a b = .lt ∧ Val.cmp b a = .gt) →
      HasTy (.btreeSet xs) (.btreeSet t)
  | hashMap {ps tk tv} : (∀ p ∈ ps, p.isPair = true) →
      (∀ p ∈ ps, HasTy p.keyOf tk) →
      (∀ p ∈ ps, HasTy p.valOf tv) →
      ps.Pairwise (fun a b =>
        Val.beq a.keyOf b.keyOf = false ∧ Val.beq b.keyOf a.keyOf = false) →
      HasTy (.hashMap ps) (.hashMap tk tv)
  | btreeMap {ps tk tv} : (∀ p ∈ ps, p.isPair = true) →
      (∀ p ∈ ps, HasTy p.keyOf tk) →
      (∀ p ∈ ps, HasTy p.valOf tv) →
      ps.Pairwise (fun a b =>
        Val.cmp a.keyOf b.keyOf = .lt ∧ Val.cmp b.keyOf a.keyOf = .gt) →
      HasTy (.btreeMap ps) (.btreeMap tk tv)


/-! ### Byte-level lemmas -/

theorem natLeBytes_length (w v : Nat) : (natLeBytes w v).length = w := by
  induction w generalizing v with
  | zero => rfl
  | succ k ih => simp [natLeBytes, ih]

theorem toBytes_length (e : Endianness) (w v : Nat) :
    (e.toBytes w v).length = w := by
  cases e <;> simp [Endianness.toBytes, natLeBytes_length]

/-- Decomposition of a remainder by a product. -/
theorem mod_mul_decomp (a b c : Nat) : a % (b * c) = a % b + b * (a / b % c) := by
  conv_lhs => rw [← Nat.div_add_mod (a % (b * c)) b]
  rw [Nat.mod_mul_right_div_self, Nat.mod_mod_of_dvd _ ⟨c, rfl⟩]
  omega

theorem natFromLeBytes_natLeBytes (w v : Nat) :
    natFromLeBytes (natLeBytes w v) = v % 256 ^ w := by
  induction w generalizing v with
  | zero => simp [natLeBytes, natFromLeBytes, Nat.mod_one]
  | succ k ih =>
    simp only [natLeBytes, natFromLeBytes, ih]
    rw [Nat.pow_succ, Nat.mul_comm (256 ^ k) 256, mod_mul_decomp]

theorem fromBytes_toBytes (e : Endianness) (w v : Nat) :
    e.fromBytes (e.toBytes w v) = v % 256 ^ w := by
  cases e <;>
    simp [Endianness.toBytes, Endianness.fromBytes, natFromLeBytes_natLeBytes]

theorem pow256_eq (w : Nat) : 256 ^ w = 2 ^ (8 * w) := by
  rw [show (256 : Nat) = 2 ^ 8 from rfl, ← Nat.pow_mul]

/-! ### Raw-read lemmas -/

theorem drop_append_of_drop_eq {buffer l1 l2 : List Nat} {pos : Nat}
    (h : buffer.drop pos = l1 ++ l2) :
    buffer.drop (pos + l1.length) = l2 := by
  rw [← List.drop_drop, h, List.drop_left]

theorem pos_le_of_drop_eq {buffer l1 l2 : List Nat} {pos : Nat}
    (hpos : pos ≤ buffer.length) (h : buffer.drop pos = l1 ++ l2) :
    pos + l1.length ≤ buffer.length := by
  have hlen := List.length_drop pos buffer
  rw [h, List.length_append] at hlen
  omega

theorem readBytes_spec {buffer pre rest : List Nat} {pos len : Nat}
    (ctx : Context) (hlen : pre.length = len)
    (hpos : pos ≤ buffer.length) (h : buffer.drop pos = pre ++ rest) :
    BufferDecoder.readBytes ⟨buffer, pos, ctx⟩ len =
      .ok (pre, ⟨buffer, pos + len, ctx⟩) := by
  subst hlen
  have hle := pos_le_of_drop_eq hpos h
  simp only [BufferDecoder.readBytes, BufferDecoder.decodeBytes]
  rw [if_neg (by omega)]
  have htake : (buffer.drop pos).take pre.length = pre := by
    rw [h, List.take_left]
  simp [htake]

/-! ### Two's-complement round trips at the five supported widths -/

theorem i2n_lt_1 (v : Int) : i2n 1 v < 2 ^ 8 := by simp only [i2n]; omega

theorem i2n_lt_2 (v : Int) : i2n 2 v < 2 ^ 16 := by simp only [i2n]; omega

theorem i2n_lt_4 (v : Int) : i2n 4 v < 2 ^ 32 := by simp only [i2n]; omega

theorem i2n_lt_8 (v : Int) : i2n 8 v < 2 ^ 64 := by simp only [i2n]; omega

theorem i2n_lt_16 (v : Int) : i2n 16 v < 2 ^ 128 := by simp only [i2n]; omega

theorem n2i_i2n_1 (v : Int) (h1 : -(2 ^ 7) ≤ v) (h2 : v < 2 ^ 7) :
    n2i 1 (i2n 1 v) = v := by simp only [n2i, i2n]; norm_num; omega

theorem n2i_i2n_2 (v : Int) (h1 : -(2 ^ 15) ≤ v) (h2 : v < 2 ^ 15) :
    n2i 2 (i2n 2 v) = v := by simp only [n2i, i2n]; norm_num; omega

theorem n2i_i2n_4 (v : Int) (h1 : -(2 ^ 31) ≤ v) (h2 : v < 2 ^ 31) :
    n2i 4 (i2n 4 v) = v := by simp only [n2i, i2n]; norm_num; omega

theorem n2i_i2n_8 (v : Int) (h1 : -(2 ^ 63) ≤ v) (h2 : v < 2 ^ 63) :
    n2i 8 (i2n 8 v) = v := by simp only [n2i, i2n]; norm_num; omega

theorem n2i_i2n_16 (v : Int) (h1 : -(2 ^ 127) ≤ v) (h2 : v < 2 ^ 127) :
    n2i 16 (i2n 16 v) = v := by simp only [n2i, i2n]; norm_num; omega

/-- Prepending an ASCII byte does not affect UTF-8 validity. -/
theorem utf8Valid_ascii_cons (c : Nat) (l : List Nat) (hc : c < 0x80) :
    utf8Valid (c :: l) = utf8Valid l := by
  rw [utf8Valid.eq_def]
  simp only [if_pos hc]

/-- ASCII-only byte lists are valid UTF-8 (used for concrete strings). -/
theorem utf8Valid_replicate (n c : Nat) (hc : c < 0x80) :
    utf8Valid (List.replicate n c) = true := by
  induction n with
  | zero => rfl
  | succ k ih => rw [List.replicate_succ, utf8Valid_ascii_cons c _ hc]; exact ih

theorem readBytes_err {d : BufferDecoder} {len : Nat}
    (h : d.buffer.length < d.position + len) :
    d.readBytes len = .error .truncatedInput := by
  simp only [BufferDecoder.readBytes, BufferDecoder.decodeBytes]
  rw [if_pos (by omega)]

/-! ### Claim C5: byte-order sensitivity of u32 encoding -/

/-- C5: encoding the unsigned 32-bit value 0x01020304 with a little-endian
Context yields exactly the bytes [0x04, 0x03, 0x02, 0x01], and with a
big-endian Context exactly [0x01, 0x02, 0x03, 0x04]. -/
theorem c5_u32_byte_order :
    encodeWithCtx (.uint 4 0x01020304) (Context.new .little) =
      .ok [0x04, 0x03, 0x02, 0x01] ∧
    encodeWithCtx (.uint 4 0x01020304) (Context.new .big) =
      .ok [0x01, 0x02, 0x03, 0x04] :=
  ⟨rfl, rfl⟩

/-! ### Claim C6: the concrete record scenario -/

/-- C6: encoding the record fields id: u64 = 1001, name: string = "ab"
(UTF-8 bytes 97, 98), flag: bool = true in declared order with a
little-endian Context produces exactly the 15 bytes
[233, 3, 0, 0, 0, 0, 0, 0] (1001 as u64 LE) ++ [2, 0, 0, 0] (length 2 LE)
++ [97, 98] ("ab") ++ [1] (true); decoding that sequence field by field
reproduces the three original field values exactly, consuming all 15
bytes. -/
theorem c6_record_scenario :
    encodeVal .little (.uint 8 1001) ++ encodeVal .little (.str [97, 98]) ++
        encodeVal .little (.bool true) =
      [233, 3, 0, 0, 0, 0, 0, 0, 2, 0, 0, 0, 97, 98, 1] ∧
    decodeVal .u64
        (BufferDecoder.new [233, 3, 0, 0, 0, 0, 0, 0, 2, 0, 0, 0, 97, 98, 1]) =
      .ok (.uint 8 1001,
        ⟨[233, 3, 0, 0, 0, 0, 0, 0, 2, 0, 0, 0, 97, 98, 1], 8,
          Context.new .little⟩) ∧
    decodeVal .string
        ⟨[233, 3, 0, 0, 0, 0, 0, 0, 2, 0, 0, 0, 97, 98, 1], 8,
          Context.new .little⟩ =
      .ok (.str [97, 98],
        ⟨[233, 3, 0, 0, 0, 0, 0, 0, 2, 0, 0, 0, 97, 98, 1], 14,
          Context.new .little⟩) ∧
    decodeVal .bool
        ⟨[233, 3, 0, 0, 0, 0, 0, 0, 2, 0, 0, 0, 97, 98, 1], 14,
          Context.new .little⟩ =
      .ok (.bool true,
        ⟨[233, 3, 0, 0, 0, 0, 0, 0, 2, 0, 0, 0, 97, 98, 1], 15,
          Context.new .little⟩) :=
  ⟨rfl, rfl, rfl, rfl⟩

/-! ### Claim C9: the usize encode/decode asymmetry -/

/-- C9: for every usize value v (v < 2^64), the `Encode` impl writes
exactly 8 bytes (v cast to u64), while `Decoder::decode_usize` always
consumes 16 bytes (it decodes at the u128 type); hence running
decode_usize on a source holding exactly the 8 encoded bytes fails with
TruncatedInput, so usize values do not round-trip through this pair. -/
theorem c9_usize_asymmetry (e : Endianness) (v : Nat) (_hv : v < 2 ^ 64) :
    (encodeUsize e v).length = 8 ∧
    decodeUsize (BufferDecoder.withCtx (encodeUsize e v) (Context.new e)) =
      .error .truncatedInput ∧
    (∀ d r d', decodeUsize d = .ok (r, d') →
      d'.buffer = d.buffer ∧ d'.position = d.position + 16) := by
  have h8 : (encodeUsize e v).length = 8 := toBytes_length e 8 _
  refine ⟨h8, ?_, ?_⟩
  · have herr : (BufferDecoder.withCtx (encodeUsize e v)
        (Context.new e)).readBytes 16 = .error .truncatedInput :=
      readBytes_err (by simp [BufferDecoder.withCtx, h8])
    simp only [decodeUsize, herr]
    rfl
  · rintro ⟨buf, pos, ctx⟩ r d' h
    by_cases hif : pos + 16 > buf.length
    · rw [decodeUsize, readBytes_err (by simpa using hif)] at h
      exact Except.noConfusion h
    · have hok : decodeUsize ⟨buf, pos, ctx⟩ =
          .ok (ctx.endian.fromBytes ((buf.drop pos).take 16),
            ⟨buf, pos + 16, ctx⟩) := by
        simp only [decodeUsize, BufferDecoder.readBytes,
          BufferDecoder.decodeBytes, if_neg hif]
        rfl
      rw [hok] at h
      injection h with h
      injection h with h1 h2
      subst h2
      exact ⟨rfl, rfl⟩

/-! ### Claim C10: 32-bit wrap-around of length and count prefixes -/

/-- C10: the 4-byte length prefix written for a string equals its UTF-8
byte length reduced modulo 2^32 (exact below 2^32, silently wrapped — and
hence different from the payload length — at 2^32 or above), and the
4-byte count prefix written for a sequence equals its element count
reduced modulo 2^32 in the same way; in both cases the payload after the
prefix is the full string/element encoding. -/
theorem c10_length_prefix_wrap (e : Endianness) (bs : List Nat)
    (xs : List Val) :
    e.fromBytes ((encodeVal e (.str bs)).take 4) = bs.length % 2 ^ 32 ∧
    (encodeVal e (.str bs)).drop 4 = bs ∧
    (bs.length < 2 ^ 32 →
      e.fromBytes ((encodeVal e (.str bs)).take 4) = bs.length) ∧
    (2 ^ 32 ≤ bs.length →
      e.fromBytes ((encodeVal e (.str bs)).take 4) ≠ bs.length) ∧
    e.fromBytes ((encodeVal e (.vec xs)).take 4) = xs.length % 2 ^ 32 ∧
    (encodeVal e (.vec xs)).drop 4 = encodeValList e xs ∧
    (xs.length < 2 ^ 32 →
      e.fromBytes ((encodeVal e (.vec xs)).take 4) = xs.length) ∧
    (2 ^ 32 ≤ xs.length →
      e.fromBytes ((encodeVal e (.vec xs)).take 4) ≠ xs.length) := by
  have hs : encodeVal e (.str bs) =
      e.toBytes 4 (bs.length % 2 ^ 32) ++ bs := by
    simp [encodeVal]
  have hv : encodeVal e (.vec xs) =
      e.toBytes 4 (xs.length % 2 ^ 32) ++ encodeValList e xs := by
    simp [encodeVal]
  have hl4s : (e.toBytes 4 (bs.length % 2 ^ 32)).length = 4 :=
    toBytes_length e 4 _
  have hl4v : (e.toBytes 4 (xs.length % 2 ^ 32)).length = 4 :=
    toBytes_length e 4 _
  have hps : e.fromBytes ((encodeVal e (.str bs)).take 4) =
      bs.length % 2 ^ 32 := by
    rw [hs, List.take_left' hl4s, fromBytes_toBytes]
    norm_num
  have hpv : e.fromBytes ((encodeVal e (.vec xs)).take 4) =
      xs.length % 2 ^ 32 := by
    rw [hv, List.take_left' hl4v, fromBytes_toBytes]
    norm_num
  refine ⟨hps, ?_, ?_, ?_, hpv, ?_, ?_, ?_⟩
  · rw [hs, List.drop_left' hl4s]
  · intro hlt
    rw [hps]
    omega
  · intro hge
    rw [hps]
    omega
  · rw [hv, List.drop_left' hl4v]
  · intro hlt
    rw [hpv]
    omega
  · intro hge
    rw [hpv]
    omega

theorem readBytes_ok {d : BufferDecoder} {len : Nat}
    (h : d.position + len ≤ d.buffer.length) :
    d.readBytes len = .ok ((d.buffer.drop d.position).take len,
      ⟨d.buffer, d.position + len, d.context⟩) := by
  simp only [BufferDecoder.readBytes, BufferDecoder.decodeBytes]
  rw [if_neg (by omega)]

theorem except_bind_ok_map (m : Except Error (Val × BufferDecoder))
    (f : Val → Val) :
    (m >>= fun p => Except.ok (f p.1, p.2)) =
      m.map (fun p => (f p.1, p.2)) := by
  cases m <;> rfl

/-! ### Claim C2: truncation errors -/

/-- C2: on a source whose cursor is in bounds, a raw read of n bytes
fails — with TruncatedInput — exactly when fewer than n bytes remain
before the end of the buffer; consequently decoding a u32 with 3 or fewer
remaining bytes fails with TruncatedInput, and decoding a string whose
declared 32-bit length L (read from the next four bytes) exceeds the bytes
remaining after the prefix fails with TruncatedInput. -/
theorem c2_truncation (d : BufferDecoder) (n : Nat)
    (hinv : d.position ≤ d.buffer.length) :
    ((d.decodeBytes n).1 = .error .truncatedInput ↔ d.remaining < n) ∧
    (d.remaining ≤ 3 → decodeVal .u32 d = .error .truncatedInput) ∧
    (∀ L, L = d.context.endian.fromBytes ((d.buffer.drop d.position).take 4) →
      d.remaining < 4 + L → decodeVal .string d = .error .truncatedInput) := by
  obtain ⟨buf, pos, ctx⟩ := d
  simp only [BufferDecoder.remaining] at *
  refine ⟨?_, ?_, ?_⟩
  · simp only [BufferDecoder.decodeBytes]
    by_cases hif : pos + n > buf.length
    · rw [if_pos hif]
      exact ⟨fun _ => by omega, fun _ => rfl⟩
    · rw [if_neg hif]
      exact ⟨fun h => Except.noConfusion h, fun h => absurd h (by omega)⟩
  · intro hrem
    rw [decodeVal, readBytes_err (by simp only []; omega)]
    rfl
  · intro L hL hrem
    by_cases h4 : pos + 4 ≤ buf.length
    · have h1 : BufferDecoder.readBytes ⟨buf, pos, ctx⟩ 4 =
          .ok ((buf.drop pos).take 4, ⟨buf, pos + 4, ctx⟩) := readBytes_ok h4
      rw [decodeVal, h1]
      show (BufferDecoder.readBytes ⟨buf, pos + 4, ctx⟩
          (ctx.endian.fromBytes ((buf.drop pos).take 4)) >>=
            fun p => if utf8Valid p.1 then _ else _) = _
      rw [← hL, readBytes_err (by simp only []; omega)]
      rfl
    · rw [decodeVal, readBytes_err (by simp only []; omega)]
      rfl

/-! ### Claim C3: the Option tag byte -/

/-- C3: decoding an Option from a source whose next byte is b yields
None (consuming exactly the tag byte) when b = 0, Some of the decoded
payload (decoded right after the tag byte) when b = 1, and fails with
InvalidDiscriminant for every other b. -/
theorem c3_option_tag (t : Ty) (d : BufferDecoder) (b : Nat)
    (tl : List Nat) (hdrop : d.buffer.drop d.position = b :: tl) :
    (b ≠ 0 → b ≠ 1 →
      decodeVal (.opt t) d = .error .invalidDiscriminant) ∧
    (b = 0 → decodeVal (.opt t) d =
      .ok (.none, ⟨d.buffer, d.position + 1, d.context⟩)) ∧
    (b = 1 → decodeVal (.opt t) d =
      (decodeVal t ⟨d.buffer, d.position + 1, d.context⟩).map
        (fun p => (.some p.1, p.2))) := by
  obtain ⟨buf, pos, ctx⟩ := d
  simp only at hdrop ⊢
  have hpos : pos ≤ buf.length := by
    have hlen := List.length_drop pos buf
    rw [hdrop] at hlen
    simp at hlen
    omega
  have h1 : BufferDecoder.readBytes ⟨buf, pos, ctx⟩ 1 =
      .ok ([b], ⟨buf, pos + 1, ctx⟩) :=
    readBytes_spec ctx rfl hpos (by rw [hdrop]; rfl)
  refine ⟨?_, ?_, ?_⟩
  · intro hb0 hb1
    obtain ⟨k, rfl⟩ : ∃ k, b = k + 2 := ⟨b - 2, by omega⟩
    rw [decodeVal, h1]
    rfl
  · rintro rfl
    rw [decodeVal, h1]
    rfl
  · rintro rfl
    rw [decodeVal, h1]
    exact except_bind_ok_map _ Val.some

/-! ### Claim C4: the Result tag polarity -/

/-- C4: encoding a Result writes tag byte 1 then the encoded success
value for Ok, and tag byte 0 then the encoded failure value for Err —
the reverse polarity of Option, which uses 1 for present and 0 for
absent; decoding reads the tag and reconstructs the matching variant
(1 = Ok payload, 0 = Err payload) and fails with InvalidDiscriminant on
every tag outside {0, 1}. -/
theorem c4_result_tags (e : Endianness) (v w : Val) (t te : Ty)
    (d : BufferDecoder) (b : Nat) (tl : List Nat)
    (hdrop : d.buffer.drop d.position = b :: tl) :
    encodeVal e (.ok v) = 1 :: encodeVal e v ∧
    encodeVal e (.err w) = 0 :: encodeVal e w ∧
    encodeVal e (.some v) = 1 :: encodeVal e v ∧
    encodeVal e .none = [0] ∧
    (b = 1 → decodeVal (.result t te) d =
      (decodeVal t ⟨d.buffer, d.position + 1, d.context⟩).map
        (fun p => (.ok p.1, p.2))) ∧
    (b = 0 → decodeVal (.result t te) d =
      (decodeVal te ⟨d.buffer, d.position + 1, d.context⟩).map
        (fun p => (.err p.1, p.2))) ∧
    (b ≠ 0 → b ≠ 1 →
      decodeVal (.result t te) d = .error .invalidDiscriminant) := by
  obtain ⟨buf, pos, ctx⟩ := d
  simp only at hdrop ⊢
  have hpos : pos ≤ buf.length := by
    have hlen := List.length_drop pos buf
    rw [hdrop] at hlen
    simp at hlen
    omega
  have h1 : BufferDecoder.readBytes ⟨buf, pos, ctx⟩ 1 =
      .ok ([b], ⟨buf, pos + 1, ctx⟩) :=
    readBytes_spec ctx rfl hpos (by rw [hdrop]; rfl)
  refine ⟨rfl, rfl, rfl, rfl, ?_, ?_, ?_⟩
  · rintro rfl
    rw [decodeVal, h1]
    exact except_bind_ok_map _ Val.ok
  · rintro rfl
    rw [decodeVal, h1]
    exact except_bind_ok_map _ Val.err
  · intro hb0 hb1
    obtain ⟨k, rfl⟩ : ∃ k, b = k + 2 := ⟨b - 2, by omega⟩
    rw [decodeVal, h1]
    rfl

/-! ### Claim C8: the cursor invariant of the buffer-backed source -/

/-- C8: on a source whose cursor is in bounds, a raw read of n bytes
succeeds exactly when cursor + n ≤ length; the read never changes the
buffer and always leaves the cursor within [0, length]; a successful read
advances the cursor by exactly n; a failed read leaves the state
untouched; and set_position(p) sets the cursor to min(p, length) — always
in bounds, silently clamping relocations past the end. -/
theorem c8_cursor_invariant (d : BufferDecoder) (n pos2 : Nat)
    (hinv : d.position ≤ d.buffer.length) :
    ((∃ bs, (d.decodeBytes n).1 = .ok bs) ↔
      d.position + n ≤ d.buffer.length) ∧
    (d.decodeBytes n).2.buffer = d.buffer ∧
    (d.decodeBytes n).2.position ≤ d.buffer.length ∧
    (d.position + n ≤ d.buffer.length →
      (d.decodeBytes n).2.position = d.position + n) ∧
    (d.buffer.length < d.position + n → (d.decodeBytes n).2 = d) ∧
    (d.setPosition pos2).position = min pos2 d.buffer.length ∧
    (d.setPosition pos2).position ≤ d.buffer.length := by
  obtain ⟨buf, pos, ctx⟩ := d
  simp only [] at hinv
  refine ⟨?_, ?_, ?_, ?_, ?_, ?_, ?_⟩
  · simp only [BufferDecoder.decodeBytes]
    by_cases hif : pos + n > buf.length
    · rw [if_pos hif]
      exact ⟨fun h => Except.noConfusion h.choose_spec, fun h => absurd h (by omega)⟩
    · rw [if_neg hif]
      exact ⟨fun _ => by omega, fun _ => ⟨_, rfl⟩⟩
  · simp only [BufferDecoder.decodeBytes]
    by_cases hif : pos + n > buf.length
    · rw [if_pos hif]
    · rw [if_neg hif]
  · simp only [BufferDecoder.decodeBytes]
    by_cases hif : pos + n > buf.length
    · rw [if_pos hif]
      exact hinv
    · rw [if_neg hif]
      show pos + n ≤ buf.length
      omega
  · intro hle
    dsimp only at hle
    simp only [BufferDecoder.decodeBytes]
    rw [if_neg (by omega)]
  · intro hgt
    dsimp only at hgt
    simp only [BufferDecoder.decodeBytes]
    rw [if_pos (by omega)]
  · rfl
  · show min pos2 buf.length ≤ buf.length
    omega

/-- Witness for C2 at a concrete source: reading 3 bytes from the 2-byte
buffer [1, 2] at cursor 0 fails with TruncatedInput. -/
theorem c2_truncation_witness :
    ((BufferDecoder.new [1, 2]).decodeBytes 3).1 = .error .truncatedInput :=
  (c2_truncation (BufferDecoder.new [1, 2]) 3 (by decide)).1.mpr (by decide)

/-- Witness for C3 at a concrete source: an Option tag byte 2 fails with
InvalidDiscriminant. -/
theorem c3_option_tag_witness :
    decodeVal (.opt .u8) (BufferDecoder.new [2, 5]) =
      .error .invalidDiscriminant :=
  (c3_option_tag .u8 (BufferDecoder.new [2, 5]) 2 [5] (by decide)).1
    (by decide) (by decide)

/-- Witness for C4 at a concrete source: a Result tag byte 2 fails with
InvalidDiscriminant. -/
theorem c4_result_tags_witness :
    decodeVal (.result .u8 .bool) (BufferDecoder.new [2]) =
      .error .invalidDiscriminant :=
  (c4_result_tags .little (.bool true) (.bool false) .u8 .bool
    (BufferDecoder.new [2]) 2 [] (by decide)).2.2.2.2.2.2 (by decide) (by decide)

/-- Witness for C8 at a concrete source: relocating past the end clamps to
the buffer length. -/
theorem c8_cursor_invariant_witness :
    ((BufferDecoder.new [7]).setPosition 5).position = min 5 1 :=
  (c8_cursor_invariant (BufferDecoder.new [7]) 0 5 (by decide)).2.2.2.2.2.1

/-- Witness for C9 at the concrete usize value 5: decode_usize on the
8 bytes written for it fails with TruncatedInput. -/
theorem c9_usize_asymmetry_witness :
    decodeUsize (BufferDecoder.withCtx (encodeUsize .little 5)
      (Context.new .little)) = .error .truncatedInput :=
  (c9_usize_asymmetry .little 5 (by norm_num)).2.1

/-- Witness for C10 at a concrete 1-byte string: the written length prefix
decodes back to exactly 1. -/
theorem c10_length_prefix_wrap_witness :
    Endianness.fromBytes .little ((encodeVal .little (.str [97])).take 4) = 1 :=
  (c10_length_prefix_wrap .little [97] []).2.2.1 (by norm_num)

/-! ### Round-trip machinery -/

/-- A value decodes back from its own encoding: starting anywhere in a
buffer whose remaining bytes begin with `encodeVal e v`, `decodeVal t`
succeeds with exactly `v` and advances the cursor by exactly the encoding
length. -/
def DecOn (e : Endianness) (t : Ty) (v : Val) : Prop :=
  ∀ (buffer : List Nat) (pos : Nat) (rest : List Nat),
    pos ≤ buffer.length →
    buffer.drop pos = encodeVal e v ++ rest →
    decodeVal t ⟨buffer, pos, ⟨e⟩⟩ =
      .ok (v, ⟨buffer, pos + (encodeVal e v).length, ⟨e⟩⟩)

theorem ok_bind {α β : Type} (a : α) (f : α → Except Error β) :
    (Except.ok a >>= f) = f a := rfl

theorem smallLensList_mem {xs : List Val} {x : Val}
    (h : smallLensList xs = true) (hx : x ∈ xs) : smallLens x = true := by
  induction xs with
  | nil => cases hx
  | cons y ys ih =>
    rw [smallLensList, Bool.and_eq_true] at h
    rcases hx with _ | hx
    · exact h.1
    · exact ih h.2 (by assumption)

theorem toBytes_one (e : Endianness) (n : Nat) : e.toBytes 1 n = [n % 256] := by
  cases e <;> rfl

/-- Decoding helper for the multi-byte unsigned widths. -/
theorem decOn_uint (e : Endianness) (w n : Nat) (t : Ty)
    (hdec : ∀ d : BufferDecoder, decodeVal t d = d.readBytes w >>=
      fun p => .ok (.uint w (d.context.endian.fromBytes p.1), p.2))
    (hn : n < 256 ^ w) : DecOn e t (.uint w n) := by
  intro buffer pos rest hpos h
  have henc : encodeVal e (.uint w n) = e.toBytes w n := rfl
  rw [henc] at h ⊢
  rw [hdec, readBytes_spec ⟨e⟩ (toBytes_length e w n) hpos h, ok_bind]
  have hv : Endianness.fromBytes e (e.toBytes w n) = n := by
    rw [fromBytes_toBytes]
    exact Nat.mod_eq_of_lt hn
  show Except.ok (Val.uint w (Endianness.fromBytes e (e.toBytes w n)),
    (⟨buffer, pos + w, ⟨e⟩⟩ : BufferDecoder)) = _
  rw [hv, toBytes_length]

/-- Decoding helper for the multi-byte signed widths. -/
theorem decOn_int (e : Endianness) (w : Nat) (v : Int) (t : Ty)
    (hdec : ∀ d : BufferDecoder, decodeVal t d = d.readBytes w >>=
      fun p => .ok (.int w (n2i w (d.context.endian.fromBytes p.1)), p.2))
    (hro : n2i w (i2n w v) = v) (hlt : i2n w v < 256 ^ w) :
    DecOn e t (.int w v) := by
  intro buffer pos rest hpos h
  have henc : encodeVal e (.int w v) = e.toBytes w (i2n w v) := rfl
  rw [henc] at h ⊢
  rw [hdec, readBytes_spec ⟨e⟩ (toBytes_length e w _) hpos h, ok_bind]
  have hv : Endianness.fromBytes e (e.toBytes w (i2n w v)) = i2n w v := by
    rw [fromBytes_toBytes]
    exact Nat.mod_eq_of_lt hlt
  show Except.ok (Val.int w (n2i w
      (Endianness.fromBytes e (e.toBytes w (i2n w v)))),
    (⟨buffer, pos + w, ⟨e⟩⟩ : BufferDecoder)) = _
  rw [hv, hro, toBytes_length]

/-- Decoding helper for the float widths (bit patterns). -/
theorem decOn_float (e : Endianness) (w n : Nat) (t : Ty)
    (hdec : ∀ d : BufferDecoder, decodeVal t d = d.readBytes w >>=
      fun p => .ok (.float w (d.context.endian.fromBytes p.1), p.2))
    (hn : n < 256 ^ w) : DecOn e t (.float w n) := by
  intro buffer pos rest hpos h
  have henc : encodeVal e (.float w n) = e.toBytes w n := rfl
  rw [henc] at h ⊢
  rw [hdec, readBytes_spec ⟨e⟩ (toBytes_length e w n) hpos h, ok_bind]
  have hv : Endianness.fromBytes e (e.toBytes w n) = n := by
    rw [fromBytes_toBytes]
    exact Nat.mod_eq_of_lt hn
  show Except.ok (Val.float w (Endianness.fromBytes e (e.toBytes w n)),
    (⟨buffer, pos + w, ⟨e⟩⟩ : BufferDecoder)) = _
  rw [hv, toBytes_length]

theorem decodeLoop_spec (e : Endianness)
    (f : BufferDecoder → Except Error (Val × BufferDecoder)) :
    ∀ (xs : List Val),
      (∀ x ∈ xs, ∀ (buffer : List Nat) (pos : Nat) (rest : List Nat),
        pos ≤ buffer.length →
        buffer.drop pos = encodeVal e x ++ rest →
        f ⟨buffer, pos, ⟨e⟩⟩ =
          .ok (x, ⟨buffer, pos + (encodeVal e x).length, ⟨e⟩⟩)) →
      ∀ (buffer : List Nat) (pos : Nat) (rest : List Nat),
        pos ≤ buffer.length →
        buffer.drop pos = encodeValList e xs ++ rest →
        decodeLoop f xs.length ⟨buffer, pos, ⟨e⟩⟩ =
          .ok (xs, ⟨buffer, pos + (encodeValList e xs).length, ⟨e⟩⟩) := by
  intro xs
  induction xs with
  | nil =>
    intro _ buffer pos rest hpos h
    show Except.ok ([], _) = _
    rw [show encodeValList e ([] : List Val) = [] from rfl]
    simp
  | cons x xs ih =>
    intro hf buffer pos rest hpos h
    have hcons : encodeValList e (x :: xs) =
        encodeVal e x ++ encodeValList e xs := rfl
    rw [hcons, List.append_assoc] at h
    have hx := hf x (by simp) buffer pos _ hpos h
    have hpos2 := pos_le_of_drop_eq hpos h
    have hdrop2 := drop_append_of_drop_eq h
    have hxs := ih (fun y hy => hf y (by simp [hy])) buffer
      (pos + (encodeVal e x).length) rest hpos2 hdrop2
    show (f ⟨buffer, pos, ⟨e⟩⟩ >>= fun p =>
      decodeLoop f xs.length p.2 >>= fun q => .ok (p.1 :: q.1, q.2)) = _
    rw [hx]
    simp only [ok_bind]
    rw [hxs]
    simp only [ok_bind]
    rw [hcons, List.length_append, ← Nat.add_assoc]

/-! ### Container insert lemmas -/

theorem memBeq_append (x : Val) (l1 l2 : List Val) :
    memBeq x (l1 ++ l2) = (memBeq x l1 || memBeq x l2) := by
  induction l1 with
  | nil => rfl
  | cons y ys ih => simp [memBeq, ih, Bool.or_assoc]

theorem foldl_hashInsert (xs : List Val) :
    ∀ acc : List Val, (∀ x ∈ xs, memBeq x acc = false) →
    xs.Pairwise (fun a b => Val.beq a b = false ∧ Val.beq b a = false) →
    xs.foldl hashInsert acc = acc ++ xs := by
  induction xs with
  | nil => intro acc _ _; simp
  | cons x xs ih =>
    intro acc hacc hnd
    rw [List.pairwise_cons] at hnd
    rw [List.foldl_cons]
    have hx : memBeq x acc = false := hacc x (by simp)
    rw [show hashInsert acc x = acc ++ [x] by simp [hashInsert, hx]]
    rw [ih (acc ++ [x]) ?_ hnd.2]
    · simp
    · intro y hy
      rw [memBeq_append]
      have h1 : memBeq y acc = false := hacc y (by simp [hy])
      have h2 : Val.beq y x = false := ((hnd.1 y hy).2)
      simp [memBeq, h1, h2]

theorem btreeInsert_append (x : Val) :
    ∀ s : List Val, (∀ y ∈ s, Val.cmp x y = .gt) →
    btreeInsert s x = s ++ [x] := by
  intro s
  induction s with
  | nil => intro _; rfl
  | cons y ys ih =>
    intro h
    rw [btreeInsert, h y (by simp), ih (fun z hz => h z (by simp [hz]))]
    rfl

theorem foldl_btreeInsert (xs : List Val) :
    ∀ acc : List Val, (∀ x ∈ xs, ∀ y ∈ acc, Val.cmp x y = .gt) →
    xs.Pairwise (fun a b => Val.cmp a b = .lt ∧ Val.cmp b a = .gt) →
    xs.foldl btreeInsert acc = acc ++ xs := by
  induction xs with
  | nil => intro acc _ _; simp
  | cons x xs ih =>
    intro acc hacc hnd
    rw [List.pairwise_cons] at hnd
    rw [List.foldl_cons, btreeInsert_append x acc (hacc x (by simp))]
    rw [ih (acc ++ [x]) ?_ hnd.2]
    · simp
    · intro z hz y hy
      rcases List.mem_append.1 hy with hya | hyx
      · exact hacc z (by simp [hz]) y hya
      · rw [List.mem_singleton.1 hyx]
        exact (hnd.1 z hz).2

theorem hashMapInsert_append (p : Val) :
    ∀ m : List Val, (∀ q ∈ m, Val.beq p.keyOf q.keyOf = false) →
    hashMapInsert m p = m ++ [p] := by
  intro m
  induction m with
  | nil => intro _; rfl
  | cons q qs ih =>
    intro h
    rw [hashMapInsert]
    rw [if_neg (by rw [h q (by simp)]; exact Bool.false_ne_true)]
    rw [ih (fun r hr => h r (by simp [hr]))]
    rfl

theorem foldl_hashMapInsert (ps : List Val) :
    ∀ acc : List Val, (∀ p ∈ ps, ∀ q ∈ acc, Val.beq p.keyOf q.keyOf = false) →
    ps.Pairwise (fun a b => Val.beq a.keyOf b.keyOf = false ∧
      Val.beq b.keyOf a.keyOf = false) →
    ps.foldl hashMapInsert acc = acc ++ ps := by
  induction ps with
  | nil => intro acc _ _; simp
  | cons p ps ih =>
    intro acc hacc hnd
    rw [List.pairwise_cons] at hnd
    rw [List.foldl_cons, hashMapInsert_append p acc (hacc p (by simp))]
    rw [ih (acc ++ [p]) ?_ hnd.2]
    · simp
    · intro z hz q hq
      rcases List.mem_append.1 hq with hqa | hqp
      · exact hacc z (by simp [hz]) q hqa
      · rw [List.mem_singleton.1 hqp]
        exact (hnd.1 z hz).2

theorem btreeMapInsert_append (p : Val) :
    ∀ m : List Val, (∀ q ∈ m, Val.cmp p.keyOf q.keyOf = .gt) →
    btreeMapInsert m p = m ++ [p] := by
  intro m
  induction m with
  | nil => intro _; rfl
  | cons q qs ih =>
    intro h
    rw [btreeMapInsert, h q (by simp), ih (fun r hr => h r (by simp [hr]))]
    rfl

theorem foldl_btreeMapInsert (ps : List Val) :
    ∀ acc : List Val, (∀ p ∈ ps, ∀ q ∈ acc, Val.cmp p.keyOf q.keyOf = .gt) →
    ps.Pairwise (fun a b => Val.cmp a.keyOf b.keyOf = .lt ∧
      Val.cmp b.keyOf a.keyOf = .gt) →
    ps.foldl btreeMapInsert acc = acc ++ ps := by
  induction ps with
  | nil => intro acc _ _; simp
  | cons p ps ih =>
    intro acc hacc hnd
    rw [List.pairwise_cons] at hnd
    rw [List.foldl_cons, btreeMapInsert_append p acc (hacc p (by simp))]
    rw [ih (acc ++ [p]) ?_ hnd.2]
    · simp
    · intro z hz q hq
      rcases List.mem_append.1 hq with hqa | hqp
      · exact hacc z (by simp [hz]) q hqa
      · rw [List.mem_singleton.1 hqp]
        exact (hnd.1 z hz).2

theorem isPair_eq {p : Val} (hp : p.isPair = true) : ∃ a b, p = .pair a b := by
  cases p with
  | pair a b => exact ⟨a, b, rfl⟩
  | uint w n => simp [Val.isPair] at hp
  | int w v => simp [Val.isPair] at hp
  | float w b => simp [Val.isPair] at hp
  | bool b => simp [Val.isPair] at hp
  | str bs => simp [Val.isPair] at hp
  | triple a b c => simp [Val.isPair] at hp
  | none => simp [Val.isPair] at hp
  | some v => simp [Val.isPair] at hp
  | ok v => simp [Val.isPair] at hp
  | err v => simp [Val.isPair] at hp
  | vec xs => simp [Val.isPair] at hp
  | hashSet xs => simp [Val.isPair] at hp
  | btreeSet xs => simp [Val.isPair] at hp
  | hashMap ps => simp [Val.isPair] at hp
  | btreeMap ps => simp [Val.isPair] at hp

/-- The per-entry key-then-value decode step of the map `Decode`
implementations reads back exactly one encoded entry. -/
theorem kvDecode_spec (e : Endianness) (tk tv : Ty) (p : Val)
    (hp : p.isPair = true)
    (hk : DecOn e tk p.keyOf) (hv : DecOn e tv p.valOf) :
    ∀ (buffer : List Nat) (pos : Nat) (rest : List Nat),
      pos ≤ buffer.length →
      buffer.drop pos = encodeVal e p ++ rest →
      (do
        let (k, dk) ← decodeVal tk (⟨buffer, pos, ⟨e⟩⟩ : BufferDecoder)
        let (v, dv) ← decodeVal tv dk
        Except.ok (Val.pair k v, dv)) =
        .ok (p, ⟨buffer, pos + (encodeVal e p).length, ⟨e⟩⟩) := by
  obtain ⟨a, b, rfl⟩ := isPair_eq hp
  simp only [Val.keyOf, Val.valOf] at hk hv
  intro buffer pos rest hpos h
  have henc : encodeVal e (.pair a b) = encodeVal e a ++ encodeVal e b := rfl
  rw [henc, List.append_assoc] at h
  have ha := hk buffer pos _ hpos h
  have hpos2 := pos_le_of_drop_eq hpos h
  have hdrop2 := drop_append_of_drop_eq h
  have hb := hv buffer (pos + (encodeVal e a).length) rest hpos2 hdrop2
  rw [ha]
  simp only [ok_bind]
  rw [hb]
  simp only [ok_bind]
  rw [henc, List.length_append, ← Nat.add_assoc]

/-- Core round-trip lemma: every well-typed value all of whose length and
count prefixes fit in 32 bits decodes back from its own encoding, under
either byte order, leaving trailing bytes untouched. -/
theorem decode_encodeVal (e : Endianness) {v : Val} {t : Ty} (h : HasTy v t) :
    smallLens v = true → DecOn e t v := by
  induction h with
  | @u8 n hn =>
    intro _ buffer pos rest hpos hdrop
    have hb : e.toBytes 1 n = [n] := by
      rw [toBytes_one, Nat.mod_eq_of_lt (by norm_num at hn ⊢; omega)]
    have henc : encodeVal e (.uint 1 n) = e.toBytes 1 n := rfl
    rw [henc, hb] at hdrop ⊢
    rw [decodeVal, readBytes_spec ⟨e⟩ (show ([n] : List Nat).length = 1 from rfl)
      hpos hdrop]
    simp only [ok_bind]
    simp [List.headD]
  | @u16 n hn =>
    intro _
    exact decOn_uint e 2 n .u16 (fun d => rfl) (by norm_num at hn ⊢; omega)
  | @u32 n hn =>
    intro _
    exact decOn_uint e 4 n .u32 (fun d => rfl) (by norm_num at hn ⊢; omega)
  | @u64 n hn =>
    intro _
    exact decOn_uint e 8 n .u64 (fun d => rfl) (by norm_num at hn ⊢; omega)
  | @u128 n hn =>
    intro _
    exact decOn_uint e 16 n .u128 (fun d => rfl) (by norm_num at hn ⊢; omega)
  | @i8 v h1 h2 =>
    intro _ buffer pos rest hpos hdrop
    have hb : e.toBytes 1 (i2n 1 v) = [i2n 1 v] := by
      rw [toBytes_one,
        Nat.mod_eq_of_lt (by have := i2n_lt_1 v; norm_num at this ⊢; omega)]
    have henc : encodeVal e (.int 1 v) = e.toBytes 1 (i2n 1 v) := rfl
    rw [henc, hb] at hdrop ⊢
    rw [decodeVal, readBytes_spec ⟨e⟩
      (show ([i2n 1 v] : List Nat).length = 1 from rfl) hpos hdrop]
    simp only [ok_bind]
    simp [List.headD, n2i_i2n_1 v h1 h2]
  | @i16 v h1 h2 =>
    intro _
    exact decOn_int e 2 v .i16 (fun d => rfl) (n2i_i2n_2 v h1 h2)
      (by have := i2n_lt_2 v; norm_num at this ⊢; omega)
  | @i32 v h1 h2 =>
    intro _
    exact decOn_int e 4 v .i32 (fun d => rfl) (n2i_i2n_4 v h1 h2)
      (by have := i2n_lt_4 v; norm_num at this ⊢; omega)
  | @i64 v h1 h2 =>
    intro _
    exact decOn_int e 8 v .i64 (fun d => rfl) (n2i_i2n_8 v h1 h2)
      (by have := i2n_lt_8 v; norm_num at this ⊢; omega)
  | @i128 v h1 h2 =>
    intro _
    exact decOn_int e 16 v .i128 (fun d => rfl) (n2i_i2n_16 v h1 h2)
      (by have := i2n_lt_16 v; norm_num at this ⊢; omega)
  | @f32 bits hn =>
    intro _
    exact decOn_float e 4 bits .f32 (fun d => rfl) (by norm_num at hn ⊢; omega)
  | @f64 bits hn =>
    intro _
    exact decOn_float e 8 bits .f64 (fun d => rfl) (by norm_num at hn ⊢; omega)
  | @bool b =>
    intro _ buffer pos rest hpos hdrop
    have henc : encodeVal e (.bool b) = [if b then 1 else 0] := rfl
    rw [henc] at hdrop ⊢
    rw [decodeVal, readBytes_spec ⟨e⟩
      (show ([if b = true then 1 else 0] : List Nat).length = 1 from rfl)
      hpos hdrop]
    simp only [ok_bind]
    cases b <;> simp [List.headD]
  | @str bs hutf =>
    intro hsl buffer pos rest hpos hdrop
    have hlen : bs.length < 2 ^ 32 := of_decide_eq_true hsl
    have hmod : bs.length % 2 ^ 32 = bs.length := Nat.mod_eq_of_lt hlen
    have henc : encodeVal e (.str bs) =
        e.toBytes 4 (bs.length % 2 ^ 32) ++ bs := rfl
    rw [henc, hmod] at hdrop ⊢
    rw [List.append_assoc] at hdrop
    rw [decodeVal, readBytes_spec ⟨e⟩ (toBytes_length e 4 _) hpos hdrop]
    simp only [ok_bind]
    have hfb : Endianness.fromBytes e (e.toBytes 4 bs.length) = bs.length := by
      rw [fromBytes_toBytes]
      norm_num
      omega
    rw [hfb]
    have hpos2 := pos_le_of_drop_eq hpos hdrop
    have hdrop2 := drop_append_of_drop_eq hdrop
    rw [toBytes_length] at hpos2 hdrop2
    rw [readBytes_spec ⟨e⟩ rfl hpos2 hdrop2]
    simp only [ok_bind]
    rw [hutf]
    simp only [if_true]
    rw [List.length_append, toBytes_length, ← Nat.add_assoc]
  | @pair a b t ha hb iha ihb =>
    intro hsl buffer pos rest hpos hdrop
    have hab : (smallLens a && smallLens b) = true := hsl
    rw [Bool.and_eq_true] at hab
    have hA := iha hab.1
    have hB := ihb hab.2
    have henc : encodeVal e (.pair a b) = encodeVal e a ++ encodeVal e b := rfl
    rw [henc, List.append_assoc] at hdrop
    have h1 := hA buffer pos _ hpos hdrop
    have hpos2 := pos_le_of_drop_eq hpos hdrop
    have hdrop2 := drop_append_of_drop_eq hdrop
    have h2 := hB buffer _ rest hpos2 hdrop2
    rw [decodeVal, h1]
    simp only [ok_bind]
    rw [h2]
    simp only [ok_bind]
    rw [henc, List.length_append, ← Nat.add_assoc]
  | @triple a b c t ha hb hc iha ihb ihc =>
    intro hsl buffer pos rest hpos hdrop
    have hab : ((smallLens a && smallLens b) && smallLens c) = true := hsl
    rw [Bool.and_eq_true, Bool.and_eq_true] at hab
    have hA := iha hab.1.1
    have hB := ihb hab.1.2
    have hC := ihc hab.2
    have henc : encodeVal e (.triple a b c) =
        encodeVal e a ++ encodeVal e b ++ encodeVal e c := rfl
    rw [henc, List.append_assoc, List.append_assoc] at hdrop
    have h1 := hA buffer pos _ hpos hdrop
    have hpos2 := pos_le_of_drop_eq hpos hdrop
    have hdrop2 := drop_append_of_drop_eq hdrop
    have h2 := hB buffer _ _ hpos2 hdrop2
    have hpos3 := pos_le_of_drop_eq hpos2 hdrop2
    have hdrop3 := drop_append_of_drop_eq hdrop2
    have h3 := hC buffer _ rest hpos3 hdrop3
    rw [decodeVal, h1]
    simp only [ok_bind]
    rw [h2]
    simp only [ok_bind]
    rw [h3]
    simp only [ok_bind]
    rw [henc, List.length_append, List.length_append, ← Nat.add_assoc,
      ← Nat.add_assoc]
  | @none t =>
    intro _ buffer pos rest hpos hdrop
    have henc : encodeVal e Val.none = [0] := rfl
    rw [henc] at hdrop ⊢
    rw [decodeVal, readBytes_spec ⟨e⟩
      (show ([0] : List Nat).length = 1 from rfl) hpos hdrop]
    simp only [ok_bind]
    rfl
  | @some v t hv ih =>
    intro hsl buffer pos rest hpos hdrop
    have hV := ih hsl
    have henc : encodeVal e (.some v) = 1 :: encodeVal e v := rfl
    have hdrop1 : buffer.drop pos = [1] ++ (encodeVal e v ++ rest) := by
      rw [hdrop, henc]
      rfl
    have h1 : BufferDecoder.readBytes ⟨buffer, pos, ⟨e⟩⟩ 1 =
        .ok ([1], ⟨buffer, pos + 1, ⟨e⟩⟩) :=
      readBytes_spec ⟨e⟩ rfl hpos hdrop1
    have hpos2 := pos_le_of_drop_eq hpos hdrop1
    have hdrop2 := drop_append_of_drop_eq hdrop1
    have h2 := hV buffer (pos + 1) rest (by simpa using hpos2) (by simpa using hdrop2)
    rw [decodeVal, h1]
    simp only [ok_bind]
    show (decodeVal t ⟨buffer, pos + 1, ⟨e⟩⟩ >>= fun p =>
      Except.ok (Val.some p.1, p.2)) = _
    rw [h2]
    simp only [ok_bind]
    rw [henc, List.length_cons,
      show pos + 1 + (encodeVal e v).length =
        pos + ((encodeVal e v).length + 1) by omega]
  | @ok v t te hv ih =>
    intro hsl buffer pos rest hpos hdrop
    have hV := ih hsl
    have henc : encodeVal e (.ok v) = 1 :: encodeVal e v := rfl
    have hdrop1 : buffer.drop pos = [1] ++ (encodeVal e v ++ rest) := by
      rw [hdrop, henc]
      rfl
    have h1 : BufferDecoder.readBytes ⟨buffer, pos, ⟨e⟩⟩ 1 =
        .ok ([1], ⟨buffer, pos + 1, ⟨e⟩⟩) :=
      readBytes_spec ⟨e⟩ rfl hpos hdrop1
    have hpos2 := pos_le_of_drop_eq hpos hdrop1
    have hdrop2 := drop_append_of_drop_eq hdrop1
    have h2 := hV buffer (pos + 1) rest (by simpa using hpos2) (by simpa using hdrop2)
    rw [decodeVal, h1]
    simp only [ok_bind]
    show (decodeVal t ⟨buffer, pos + 1, ⟨e⟩⟩ >>= fun p =>
      Except.ok (Val.ok p.1, p.2)) = _
    rw [h2]
    simp only [ok_bind]
    rw [henc, List.length_cons,
      show pos + 1 + (encodeVal e v).length =
        pos + ((encodeVal e v).length + 1) by omega]
  | @err v t te hv ih =>
    intro hsl buffer pos rest hpos hdrop
    have hV := ih hsl
    have henc : encodeVal e (.err v) = 0 :: encodeVal e v := rfl
    have hdrop1 : buffer.drop pos = [0] ++ (encodeVal e v ++ rest) := by
      rw [hdrop, henc]
      rfl
    have h1 : BufferDecoder.readBytes ⟨buffer, pos, ⟨e⟩⟩ 1 =
        .ok ([0], ⟨buffer, pos + 1, ⟨e⟩⟩) :=
      readBytes_spec ⟨e⟩ rfl hpos hdrop1
    have hpos2 := pos_le_of_drop_eq hpos hdrop1
    have hdrop2 := drop_append_of_drop_eq hdrop1
    have h2 := hV buffer (pos + 1) rest (by simpa using hpos2) (by simpa using hdrop2)
    rw [decodeVal, h1]
    simp only [ok_bind]
    show (decodeVal te ⟨buffer, pos + 1, ⟨e⟩⟩ >>= fun p =>
      Except.ok (Val.err p.1, p.2)) = _
    rw [h2]
    simp only [ok_bind]
    rw [henc, List.length_cons,
      show pos + 1 + (encodeVal e v).length =
        pos + ((encodeVal e v).length + 1) by omega]
  | @vec xs t hall ih =>
    intro hsl buffer pos rest hpos hdrop
    have hab : (decide (xs.length < 2 ^ 32) && smallLensList xs) = true := hsl
    rw [Bool.and_eq_true] at hab
    have hlen : xs.length < 2 ^ 32 := of_decide_eq_true hab.1
    have hmod : xs.length % 2 ^ 32 = xs.length := Nat.mod_eq_of_lt hlen
    have henc : encodeVal e (.vec xs) =
        e.toBytes 4 (xs.length % 2 ^ 32) ++ encodeValList e xs := rfl
    rw [henc, hmod] at hdrop ⊢
    rw [List.append_assoc] at hdrop
    rw [decodeVal, readBytes_spec ⟨e⟩ (toBytes_length e 4 _) hpos hdrop]
    simp only [ok_bind]
    have hfb : Endianness.fromBytes e (e.toBytes 4 xs.length) = xs.length := by
      rw [fromBytes_toBytes]
      norm_num
      omega
    rw [hfb]
    have hpos2 := pos_le_of_drop_eq hpos hdrop
    have hdrop2 := drop_append_of_drop_eq hdrop
    rw [toBytes_length] at hpos2 hdrop2
    rw [decodeLoop_spec e _ xs
      (fun x hx => ih x hx (smallLensList_mem hab.2 hx)) buffer _ rest
      hpos2 hdrop2]
    simp only [ok_bind]
    rw [List.length_append, toBytes_length, ← Nat.add_assoc]
  | @hashSet xs t hall hnd ih =>
    intro hsl buffer pos rest hpos hdrop
    have hab : (decide (xs.length < 2 ^ 32) && smallLensList xs) = true := hsl
    rw [Bool.and_eq_true] at hab
    have hlen : xs.length < 2 ^ 32 := of_decide_eq_true hab.1
    have hmod : xs.length % 2 ^ 32 = xs.length := Nat.mod_eq_of_lt hlen
    have henc : encodeVal e (.hashSet xs) =
        e.toBytes 4 (xs.length % 2 ^ 32) ++ encodeValList e xs := rfl
    rw [henc, hmod] at hdrop ⊢
    rw [List.append_assoc] at hdrop
    rw [decodeVal, readBytes_spec ⟨e⟩ (toBytes_length e 4 _) hpos hdrop]
    simp only [ok_bind]
    have hfb : Endianness.fromBytes e (e.toBytes 4 xs.length) = xs.length := by
      rw [fromBytes_toBytes]
      norm_num
      omega
    rw [hfb]
    have hpos2 := pos_le_of_drop_eq hpos hdrop
    have hdrop2 := drop_append_of_drop_eq hdrop
    rw [toBytes_length] at hpos2 hdrop2
    rw [decodeLoop_spec e _ xs
      (fun x hx => ih x hx (smallLensList_mem hab.2 hx)) buffer _ rest
      hpos2 hdrop2]
    simp only [ok_bind]
    rw [foldl_hashInsert xs [] (fun x _ => rfl) hnd, List.nil_append,
      List.length_append, toBytes_length, ← Nat.add_assoc]
  | @btreeSet xs t hall hnd ih =>
    intro hsl buffer pos rest hpos hdrop
    have hab : (decide (xs.length < 2 ^ 32) && smallLensList xs) = true := hsl
    rw [Bool.and_eq_true] at hab
    have hlen : xs.length < 2 ^ 32 := of_decide_eq_true hab.1
    have hmod : xs.length % 2 ^ 32 = xs.length := Nat.mod_eq_of_lt hlen
    have henc : encodeVal e (.btreeSet xs) =
        e.toBytes 4 (xs.length % 2 ^ 32) ++ encodeValList e xs := rfl
    rw [henc, hmod] at hdrop ⊢
    rw [List.append_assoc] at hdrop
    rw [decodeVal, readBytes_spec ⟨e⟩ (toBytes_length e 4 _) hpos hdrop]
    simp only [ok_bind]
    have hfb : Endianness.fromBytes e (e.toBytes 4 xs.length) = xs.length := by
      rw [fromBytes_toBytes]
      norm_num
      omega
    rw [hfb]
    have hpos2 := pos_le_of_drop_eq hpos hdrop
    have hdrop2 := drop_append_of_drop_eq hdrop
    rw [toBytes_length] at hpos2 hdrop2
    rw [decodeLoop_spec e _ xs
      (fun x hx => ih x hx (smallLensList_mem hab.2 hx)) buffer _ rest
      hpos2 hdrop2]
    simp only [ok_bind]
    rw [foldl_btreeInsert xs [] (fun x _ y hy => absurd hy (List.not_mem_nil y))
      hnd, List.nil_append, List.length_append, toBytes_length, ← Nat.add_assoc]
  | @hashMap ps tk tv hpair hks hvs hnd ihk ihv =>
    intro hsl buffer pos rest hpos hdrop
    have hab : (decide (ps.length < 2 ^ 32) && smallLensList ps) = true := hsl
    rw [Bool.and_eq_true] at hab
    have hlen : ps.length < 2 ^ 32 := of_decide_eq_true hab.1
    have hmod : ps.length % 2 ^ 32 = ps.length := Nat.mod_eq_of_lt hlen
    have henc : encodeVal e (.hashMap ps) =
        e.toBytes 4 (ps.length % 2 ^ 32) ++ encodeValList e ps := rfl
    rw [henc, hmod] at hdrop ⊢
    rw [List.append_assoc] at hdrop
    rw [decodeVal, readBytes_spec ⟨e⟩ (toBytes_length e 4 _) hpos hdrop]
    simp only [ok_bind]
    have hfb : Endianness.fromBytes e (e.toBytes 4 ps.length) = ps.length := by
      rw [fromBytes_toBytes]
      norm_num
      omega
    rw [hfb]
    have hpos2 := pos_le_of_drop_eq hpos hdrop
    have hdrop2 := drop_append_of_drop_eq hdrop
    rw [toBytes_length] at hpos2 hdrop2
    have hkv : ∀ p ∈ ps, smallLens p.keyOf = true ∧ smallLens p.valOf = true := by
      intro p hp
      obtain ⟨a, b, rfl⟩ := isPair_eq (hpair p hp)
      have hm : (smallLens a && smallLens b) = true := smallLensList_mem hab.2 hp
      rw [Bool.and_eq_true] at hm
      exact hm
    rw [decodeLoop_spec e _ ps
      (fun p hp => kvDecode_spec e tk tv p (hpair p hp)
        (ihk p hp (hkv p hp).1) (ihv p hp (hkv p hp).2)) buffer _ rest
      hpos2 hdrop2]
    simp only [ok_bind]
    rw [foldl_hashMapInsert ps [] (fun p _ q hq => absurd hq (List.not_mem_nil q))
      hnd, List.nil_append, List.length_append, toBytes_length, ← Nat.add_assoc]
  | @btreeMap ps tk tv hpair hks hvs hnd ihk ihv =>
    intro hsl buffer pos rest hpos hdrop
    have hab : (decide (ps.length < 2 ^ 32) && smallLensList ps) = true := hsl
    rw [Bool.and_eq_true] at hab
    have hlen : ps.length < 2 ^ 32 := of_decide_eq_true hab.1
    have hmod : ps.length % 2 ^ 32 = ps.length := Nat.mod_eq_of_lt hlen
    have henc : encodeVal e (.btreeMap ps) =
        e.toBytes 4 (ps.length % 2 ^ 32) ++ encodeValList e ps := rfl
    rw [henc, hmod] at hdrop ⊢
    rw [List.append_assoc] at hdrop
    rw [decodeVal, readBytes_spec ⟨e⟩ (toBytes_length e 4 _) hpos hdrop]
    simp only [ok_bind]
    have hfb : Endianness.fromBytes e (e.toBytes 4 ps.length) = ps.length := by
      rw [fromBytes_toBytes]
      norm_num
      omega
    rw [hfb]
    have hpos2 := pos_le_of_drop_eq hpos hdrop
    have hdrop2 := drop_append_of_drop_eq hdrop
    rw [toBytes_length] at hpos2 hdrop2
    have hkv : ∀ p ∈ ps, smallLens p.keyOf = true ∧ smallLens p.valOf = true := by
      intro p hp
      obtain ⟨a, b, rfl⟩ := isPair_eq (hpair p hp)
      have hm : (smallLens a && smallLens b) = true := smallLensList_mem hab.2 hp
      rw [Bool.and_eq_true] at hm
      exact hm
    rw [decodeLoop_spec e _ ps
      (fun p hp => kvDecode_spec e tk tv p (hpair p hp)
        (ihk p hp (hkv p hp).1) (ihv p hp (hkv p hp).2)) buffer _ rest
      hpos2 hdrop2]
    simp only [ok_bind]
    rw [foldl_btreeMapInsert ps [] (fun p _ q hq => absurd hq (List.not_mem_nil q))
      hnd, List.nil_append, List.length_append, toBytes_length, ← Nat.add_assoc]

/-! ### Claim C1: the round-trip property -/

/-- C1 (amended): for every value v of a supported built-in type
(well-typed per `HasTy`, which also covers arbitrary nesting), and for
either byte order, encode_with_ctx succeeds and decode_with_ctx of its
bytes under the same Context returns Ok(v) — PROVIDED every string
byte-length and container element count inside v is below 2^32, the width
of the wire format's length prefixes (decoded hash containers here agree
even elementwise, which implies the claim's containment equality).  The
proviso is forced by the silent 32-bit wrap of length prefixes: see the
counterexample. -/
theorem c1_roundtrip (t : Ty) (v : Val) (ctx : Context) (h : HasTy v t)
    (hs : smallLens v = true) :
    encodeWithCtx v ctx = .ok (encodeVal ctx.endian v) ∧
    decodeWithCtx t (encodeVal ctx.endian v) ctx = .ok v := by
  obtain ⟨e⟩ := ctx
  refine ⟨rfl, ?_⟩
  have hd := decode_encodeVal e h hs (encodeVal e v) 0 []
    (Nat.zero_le _) (by simp)
  rw [decodeWithCtx, BufferDecoder.withCtx, hd]
  rfl

/-- Witness for C1: a one-element vector of u32 under the big-endian
context round-trips. -/
theorem c1_roundtrip_witness :
    decodeWithCtx (.vec .u32) (encodeVal .big (.vec [.uint 4 7]))
      (Context.new .big) = .ok (.vec [.uint 4 7]) :=
  (c1_roundtrip (.vec .u32) (.vec [.uint 4 7]) (Context.new .big)
    (HasTy.vec (fun x hx => by
      rw [List.mem_singleton] at hx
      subst hx
      exact HasTy.u32 (by norm_num)))
    (by rfl)).2

/-- Counterexample to C1 as stated: the well-typed String value holding
2^32 ASCII bytes does not round-trip — its u32 length prefix silently
wraps to 0, so decoding its encoding yields the empty string, not the
original value. -/
theorem c1_roundtrip_cex :
    HasTy (.str (List.replicate (2 ^ 32) 97)) .string ∧
    decodeWithCtx .string
      (encodeVal .little (.str (List.replicate (2 ^ 32) 97)))
      (Context.new .little) = .ok (.str []) ∧
    Val.str (List.replicate (2 ^ 32) 97) ≠ .str [] := by
  have hlenbs : (List.replicate (2 ^ 32) 97).length = 2 ^ 32 :=
    List.length_replicate ..
  refine ⟨HasTy.str (utf8Valid_replicate (2 ^ 32) 97 (by norm_num)), ?_, ?_⟩
  · have key : ∀ bs : List Nat, bs.length = 2 ^ 32 →
        decodeWithCtx .string (encodeVal .little (.str bs))
          (Context.new .little) = .ok (.str []) := by
      intro bs hbsl
      have henc : encodeVal .little (.str bs) =
          Endianness.toBytes .little 4 (bs.length % 2 ^ 32) ++ bs := rfl
      have hp : Endianness.toBytes .little 4 (bs.length % 2 ^ 32) =
          [0, 0, 0, 0] := by
        rw [hbsl, Nat.mod_self]
        rfl
      rw [decodeWithCtx, BufferDecoder.withCtx, henc, hp]
      simp only [Context.new]
      have hlen : (([0, 0, 0, 0] : List Nat) ++ bs).length = 4 + 2 ^ 32 := by
        rw [List.length_append, hbsl]
        rfl
      rw [decodeVal, readBytes_spec ⟨.little⟩
        (show ([0, 0, 0, 0] : List Nat).length = 4 from rfl)
        (Nat.zero_le _) (List.drop_zero _)]
      simp only [ok_bind]
      rw [show Endianness.fromBytes Endianness.little [0, 0, 0, 0] = 0 from rfl]
      rw [readBytes_ok (show (0 : Nat) + 4 + 0 ≤
        (([0, 0, 0, 0] : List Nat) ++ bs).length by rw [hlen]; omega)]
      simp only [ok_bind, List.take_zero]
      rfl
    exact key _ hlenbs
  · intro h
    injection h with h'
    have hlen0 := congrArg List.length h'
    rw [hlenbs] at hlen0
    norm_num at hlen0

/-! ### Comparator symmetry (needed for sortedness of decoded btree sets) -/

theorem ordering_then_swap (a b : Ordering) :
    (a.then b).swap = a.swap.then b.swap := by
  cases a <;> cases b <;> rfl

theorem swap_then_cong {a b c d : Ordering} (h1 : a = b.swap)
    (h2 : c = d.swap) : a.then c = (b.then d).swap := by
  rw [h1, h2, ordering_then_swap]

theorem natCmp_swap (a b : Nat) : natCmp b a = (natCmp a b).swap := by
  unfold natCmp
  split_ifs <;> first | rfl | (exfalso; omega)

theorem intCmp_swap (a b : Int) : intCmp b a = (intCmp a b).swap := by
  unfold intCmp
  split_ifs <;> first | rfl | (exfalso; omega)

theorem natLexCmp_swap : ∀ (xs ys : List Nat),
    natLexCmp ys xs = (natLexCmp xs ys).swap
  | [], [] => rfl
  | [], _ :: _ => rfl
  | _ :: _, [] => rfl
  | a :: as_, b :: bs_ => by
    simp only [natLexCmp, natCmp_swap a b]
    cases h : natCmp a b with
    | lt => rfl
    | eq => exact natLexCmp_swap as_ bs_
    | gt => rfl

mutual
theorem cmp_swap (a b : Val) : Val.cmp b a = (Val.cmp a b).swap := by
  cases a <;> cases b <;>
    first
    | rfl
    | (simp only [Val.cmp]
       first
       | exact natCmp_swap _ _
       | exact natLexCmp_swap _ _
       | exact cmpList_swap _ _
       | exact cmp_swap _ _
       | exact swap_then_cong (natCmp_swap _ _) (natCmp_swap _ _)
       | exact swap_then_cong (natCmp_swap _ _) (intCmp_swap _ _)
       | exact swap_then_cong (cmp_swap _ _) (cmp_swap _ _)
       | exact swap_then_cong
           (swap_then_cong (cmp_swap _ _) (cmp_swap _ _)) (cmp_swap _ _))
theorem cmpList_swap (xs ys : List Val) :
    Val.cmpList ys xs = (Val.cmpList xs ys).swap := by
  cases xs with
  | nil => cases ys <;> rfl
  | cons x xs' =>
    cases ys with
    | nil => rfl
    | cons y ys' =>
      simp only [Val.cmpList, cmp_swap x y]
      cases h : Val.cmp x y with
      | lt => rfl
      | eq => exact cmpList_swap xs' ys'
      | gt => rfl
end

theorem btreeInsert_head? (x : Val) (s : List Val) (b : Val)
    (hb : (btreeInsert s x).head? = some b) : b = x ∨ s.head? = some b := by
  cases s with
  | nil =>
    rw [btreeInsert, List.head?_cons] at hb
    injection hb with hb
    exact Or.inl hb.symm
  | cons y ys =>
    rw [btreeInsert] at hb
    cases h : Val.cmp x y with
    | lt =>
      rw [h, List.head?_cons] at hb
      injection hb with hb
      exact Or.inl hb.symm
    | eq =>
      rw [h] at hb
      exact Or.inr hb
    | gt =>
      rw [h, List.head?_cons] at hb
      rw [List.head?_cons]
      exact Or.inr hb

/-- `BTreeSet::insert` preserves strictly ascending order. -/
theorem btreeInsert_chain (x : Val) : ∀ s : List Val,
    s.Chain' (fun a b => Val.cmp a b = .lt) →
    (btreeInsert s x).Chain' (fun a b => Val.cmp a b = .lt) := by
  intro s
  induction s with
  | nil =>
    intro _
    rw [btreeInsert]
    exact List.chain'_singleton x
  | cons y ys ih =>
    intro hch
    rw [btreeInsert]
    cases h : Val.cmp x y with
    | lt =>
      rw [List.chain'_cons']
      refine ⟨?_, hch⟩
      intro b hb
      simp only [List.head?_cons, Option.mem_def, Option.some.injEq] at hb
      rw [← hb]
      exact h
    | eq => exact hch
    | gt =>
      rw [List.chain'_cons'] at hch
      rw [List.chain'_cons']
      refine ⟨?_, ih hch.2⟩
      intro b hb
      rw [Option.mem_def] at hb
      rcases btreeInsert_head? x ys b hb with hbx | hbh
      · rw [hbx, cmp_swap x y, h]
        rfl
      · exact hch.1 b hbh

theorem foldl_btreeInsert_chain : ∀ (zs acc : List Val),
    acc.Chain' (fun a b => Val.cmp a b = .lt) →
    (zs.foldl btreeInsert acc).Chain' (fun a b => Val.cmp a b = .lt) := by
  intro zs
  induction zs with
  | nil =>
    intro acc h
    exact h
  | cons z zs ih =>
    intro acc h
    exact ih _ (btreeInsert_chain z acc h)

/-- Every successful btree-set decode produces the insert-fold of the
elements read from the stream — hence an ascending list. -/
theorem btreeSet_decode_sorted (t : Ty) (bytes : List Nat) (ctx : Context)
    (v : Val) (h : decodeWithCtx (.btreeSet t) bytes ctx = .ok v) :
    ∃ ys, v = .btreeSet ys ∧ ys.Chain' (fun a b => Val.cmp a b = .lt) := by
  rw [decodeWithCtx] at h
  rcases hd : decodeVal (.btreeSet t) (BufferDecoder.withCtx bytes ctx)
    with er | p
  · rw [hd] at h
    exact Except.noConfusion h
  · rw [hd] at h
    obtain ⟨v', d'⟩ := p
    rw [decodeVal] at hd
    rcases hrb : (BufferDecoder.withCtx bytes ctx).readBytes 4 with er2 | q
    · rw [hrb] at hd
      exact Except.noConfusion hd
    · rw [hrb] at hd
      obtain ⟨lb, d1⟩ := q
      simp only [ok_bind] at hd
      rcases hlp : decodeLoop (fun d0 => decodeVal t d0)
          ((BufferDecoder.withCtx bytes ctx).context.endian.fromBytes lb) d1
        with er3 | r
      · rw [hlp] at hd
        exact Except.noConfusion hd
      · rw [hlp] at hd
        obtain ⟨zs, d2⟩ := r
        simp only [ok_bind] at hd
        injection hd with hd
        injection hd with hd1 hd2
        have hv : v = v' := by
          simp only [Except.map] at h
          injection h with h
          exact h.symm
        refine ⟨zs.foldl btreeInsert [], ?_,
          foldl_btreeInsert_chain zs [] List.chain'_nil⟩
        rw [hv, ← hd1]

/-! ### Claim C7: btree-set canonicalization -/

/-- C7: for every btree set, encoding writes the 4-byte element count
followed by the elements in ascending key order (the set's iteration
order, strictly ascending under Ord); every successful decode reinserts
the streamed elements into a sorted container, so the decoded set's
iteration order is ascending regardless of stream order; in particular the
sorted set containing 3, 1, 2 (iteration order [1, 2, 3]) round-trips to
iteration order [1, 2, 3], and even the non-ascending stream with count 3
and elements 3, 1, 2 decodes to iteration order [1, 2, 3]. -/
theorem c7_btreeset_canonical (t : Ty) (bytes : List Nat) (ctx : Context)
    (v : Val) (h : decodeWithCtx (.btreeSet t) bytes ctx = .ok v) :
    (∃ ys, v = .btreeSet ys ∧ ys.Chain' (fun a b => Val.cmp a b = .lt)) ∧
    (∀ (xs : List Val) (te : Ty) (e : Endianness),
      HasTy (.btreeSet xs) (.btreeSet te) →
      encodeVal e (.btreeSet xs) =
        e.toBytes 4 (xs.length % 2 ^ 32) ++ encodeValList e xs ∧
      xs.Chain' (fun a b => Val.cmp a b = .lt)) ∧
    decodeWithCtx (.btreeSet .u32)
      (encodeVal .little (.btreeSet [.uint 4 1, .uint 4 2, .uint 4 3]))
      (Context.new .little) =
      .ok (.btreeSet [.uint 4 1, .uint 4 2, .uint 4 3]) ∧
    decodeWithCtx (.btreeSet .u32)
      [3, 0, 0, 0, 3, 0, 0, 0, 1, 0, 0, 0, 2, 0, 0, 0]
      (Context.new .little) =
      .ok (.btreeSet [.uint 4 1, .uint 4 2, .uint 4 3]) := by
  refine ⟨btreeSet_decode_sorted t bytes ctx v h, ?_, rfl, rfl⟩
  intro xs te e hty
  cases hty with
  | btreeSet hall hnd =>
    exact ⟨rfl, List.Pairwise.chain' (hnd.imp (fun hab => hab.1))⟩

/-- Witness for C7 at the concrete non-ascending stream (count 3, elements
3, 1, 2): the decoded set's iteration order is ascending. -/
theorem c7_btreeset_canonical_witness :
    ∃ ys, Val.btreeSet [.uint 4 1, .uint 4 2, .uint 4 3] = .btreeSet ys ∧
      ys.Chain' (fun a b => Val.cmp a b = .lt) :=
  (c7_btreeset_canonical .u32
    [3, 0, 0, 0, 3, 0, 0, 0, 1, 0, 0, 0, 2, 0, 0, 0]
    (Context.new .little) (.btreeSet [.uint 4 1, .uint 4 2, .uint 4 3])
    (by rfl)).1

end Binrs
